import Mathlib

/-!
Verification of the descriptor-resolution subsystem (`protoresolve`) and the
dynamic message wire codec (`dynamic/binary.go`) of the protoreflect core.

Modelling conventions:
* Go strings are modelled as `List Char` (`GoStr`); Go byte slices as `List Nat`
  with every element below 256.
* Go machine integers are modelled as `Nat`/`Int` with explicit range checks
  where the code performs them (`uint64` values are kept below `2^64` by the
  wire decoders themselves).
* Descriptors (externally-owned schema objects from the protoreflect API) are
  modelled as inductive trees mirroring exactly the accessors the source uses
  (`Messages()`, `Enums()`, `Extensions()`, `Services()`, `Values()`,
  `ByName`, `Number()`, `ContainingMessage()`, `IsExtension()`).
* Fallible Go functions returning `(T, error)` become `Except Err T`; functions
  returning a nilable descriptor become `Option`.
-/

namespace ProtoVerify

/-- Go strings, as lists of characters. -/
abbrev GoStr := List Char

/-- Go `strings.TrimPrefix`: drop `pfx` from the front of `s` when it is a
prefix of `s`; otherwise return `s` unchanged. -/
def trimPfx (s pfx : GoStr) : GoStr :=
  if pfx.isPrefixOf s then s.drop pfx.length else s

/-! ## Descriptor model (protoreflect descriptor tree)

These mirror the parts of the externally supplied descriptor object graph that
`protoresolve` traverses: files containing messages, enums, extensions and
services; messages containing fields, oneofs, nested messages, nested enums
and nested extensions; enums containing values; services containing methods.
-/

structure EnumValueD where
  name : GoStr
deriving DecidableEq

structure EnumD where
  name : GoStr
  values : List EnumValueD
deriving DecidableEq

structure OneofD where
  name : GoStr
deriving DecidableEq

structure MethodD where
  name : GoStr
deriving DecidableEq

structure ServiceD where
  name : GoStr
  methods : List MethodD
deriving DecidableEq

/-- A field descriptor. In protoreflect an extension descriptor is a field
descriptor whose `IsExtension` flag is set; `containingMessage` is the full
name of `ContainingMessage()` and `number` is `Number()`. -/
structure FieldD where
  name : GoStr
  number : Nat
  isExtension : Bool
  containingMessage : GoStr
deriving DecidableEq

/-- A message descriptor: name plus the nested scopes the resolver walks. -/
inductive MessageD where
  | mk (name : GoStr) (fields : List FieldD) (oneofs : List OneofD)
       (messages : List MessageD) (enums : List EnumD) (extensions : List FieldD)

def MessageD.name : MessageD → GoStr
  | .mk n _ _ _ _ _ => n

def MessageD.fields : MessageD → List FieldD
  | .mk _ f _ _ _ _ => f

def MessageD.oneofs : MessageD → List OneofD
  | .mk _ _ o _ _ _ => o

def MessageD.messages : MessageD → List MessageD
  | .mk _ _ _ m _ _ => m

def MessageD.enums : MessageD → List EnumD
  | .mk _ _ _ _ e _ => e

def MessageD.extensions : MessageD → List FieldD
  | .mk _ _ _ _ _ x => x

/-- A file descriptor: declared package plus top-level scopes. -/
structure FileD where
  package : GoStr
  messages : List MessageD
  enums : List EnumD
  extensions : List FieldD
  services : List ServiceD

/-- The union of descriptor kinds handled by the `KindOf` type switch; the
`foreign` constructor stands for any unrecognized descriptor implementation
(the `default` case of the switch). -/
inductive Descriptor where
  | file (f : FileD)
  | message (m : MessageD)
  | field (f : FieldD)
  | oneof (o : OneofD)
  | enum (e : EnumD)
  | enumValue (v : EnumValueD)
  | service (s : ServiceD)
  | method (m : MethodD)
  | foreign

/-! ## Descriptor kind classifier -/

/-- `DescriptorKind` values; `unknown` is the zero value (iota 0), matching the
Go declaration order. -/
inductive DescriptorKind where
  | unknown
  | file
  | message
  | field
  | oneof
  | enum
  | enumValue
  | extension
  | service
  | method
deriving DecidableEq

/-- `KindOf` returns the DescriptorKind of the given descriptor: a type switch
over descriptor interfaces, with field descriptors refined into extension vs
field by `IsExtension`, and `unknown` for unrecognized implementations. -/
def KindOf : Descriptor → DescriptorKind
  | .file _ => .file
  | .message _ => .message
  | .field d => if d.isExtension then .extension else .field
  | .oneof _ => .oneof
  | .enum _ => .enum
  | .enumValue _ => .enumValue
  | .service _ => .service
  | .method _ => .method
  | .foreign => .unknown

/-! ## Symbol resolver (`FindDescriptorByNameInFile` / `findSymbolInFile` /
`findSymbolInMessage`) -/

/-- The scan over all enums of a scope looking for an enum value with the given
name (enum values live in the scope enclosing the enum). -/
def findValueInEnums (enums : List EnumD) (n : GoStr) : Option Descriptor :=
  match enums with
  | [] => none
  | e :: rest =>
    ((e.values.find? (fun v => v.name == n)).map .enumValue) <|> findValueInEnums rest n

/-- `findSymbolInMessage`: one name component means a direct child of this
message (fields, oneofs, nested messages, nested enums, nested extensions, and
values of nested enums, checked in that order); more components descend into
the named nested message. The empty list is unreachable (`strings.Split` never
produces an empty slice). -/
def findSymbolInMessage (symbolParts : List GoStr) (md : MessageD) : Option Descriptor :=
  match symbolParts with
  | [] => none
  | [n] =>
    ((md.fields.find? (fun f => f.name == n)).map .field) <|>
    ((md.oneofs.find? (fun o => o.name == n)).map .oneof) <|>
    ((md.messages.find? (fun x => x.name == n)).map .message) <|>
    ((md.enums.find? (fun e => e.name == n)).map .enum) <|>
    ((md.extensions.find? (fun x => x.name == n)).map .field) <|>
    findValueInEnums md.enums n
  | first :: rest =>
    match md.messages.find? (fun x => x.name == first) with
    | some nested => findSymbolInMessage rest nested
    | none => none

/-- `findSymbolInFile`: one component means a direct child of the file
(messages, enums, extensions, services, then values of top-level enums);
exactly two components whose first names a service resolve as a method of that
service (returning not-found if the method is absent); otherwise the first
component must name a top-level message to descend into. -/
def findSymbolInFile (symbolParts : List GoStr) (fd : FileD) : Option Descriptor :=
  match symbolParts with
  | [] => none
  | [n] =>
    ((fd.messages.find? (fun m => m.name == n)).map .message) <|>
    ((fd.enums.find? (fun e => e.name == n)).map .enum) <|>
    ((fd.extensions.find? (fun x => x.name == n)).map .field) <|>
    ((fd.services.find? (fun s => s.name == n)).map .service) <|>
    findValueInEnums fd.enums n
  | [first, second] =>
    match fd.services.find? (fun s => s.name == first) with
    | some svc => (svc.methods.find? (fun mth => mth.name == second)).map .method
    | none =>
      match fd.messages.find? (fun m => m.name == first) with
      | some msg => findSymbolInMessage [second] msg
      | none => none
  | first :: rest =>
    match fd.messages.find? (fun m => m.name == first) with
    | some msg => findSymbolInMessage rest msg
    | none => none

/-- `FindDescriptorByNameInFile`: strip the file's package prefix from the
symbol (returning nil immediately when the symbol is not in the file's
package), split the remainder on dots, and walk the hierarchy. -/
def FindDescriptorByNameInFile (file : FileD) (sym : GoStr) : Option Descriptor :=
  if file.package = [] then
    findSymbolInFile (sym.splitOn '.') file
  else if trimPfx sym (file.package ++ ['.']) = sym then
    none
  else
    findSymbolInFile ((trimPfx sym (file.package ++ ['.'])).splitOn '.') file

/-! ## Extension locator -/

/-- The matching predicate of `findExtension`: the extension's field number and
its containing message's full name both match the query. -/
def extMatches (message : GoStr) (fieldNum : Nat) (ext : FieldD) : Bool :=
  ext.number == fieldNum && ext.containingMessage == message

mutual

/-- `findExtension` on a message scope: search this scope's extension
declarations, then recurse into nested message scopes. -/
def findExtInMsg : MessageD → GoStr → Nat → Option FieldD
  | .mk _ _ _ msgs _ exts, message, fieldNum =>
    match exts.find? (extMatches message fieldNum) with
    | some ext => some ext
    | none => findExtInMsgList msgs message fieldNum

/-- The `for`-loop over nested messages in `findExtension`, returning the first
hit. -/
def findExtInMsgList : List MessageD → GoStr → Nat → Option FieldD
  | [], _, _ => none
  | m :: rest, message, fieldNum =>
    match findExtInMsg m message fieldNum with
    | some ext => some ext
    | none => findExtInMsgList rest message fieldNum

end

/-- `FindExtensionByNumberInFile` (= `findExtension` on the file scope). -/
def FindExtensionByNumberInFile (file : FileD) (message : GoStr) (fieldNum : Nat) : Option FieldD :=
  match file.extensions.find? (extMatches message fieldNum) with
  | some ext => some ext
  | none => findExtInMsgList file.messages message fieldNum

/-- `FindExtensionByNumber` over a pool: `RangeFiles` visits the files in pool
order and the range callback stops as soon as a file yields a match. A
descriptor pool is modelled as its file list in pool order. -/
def FindExtensionByNumber : List FileD → GoStr → Nat → Option FieldD
  | [], _, _ => none
  | f :: rest, message, fieldNum =>
    match FindExtensionByNumberInFile f message fieldNum with
    | some ext => some ext
    | none => FindExtensionByNumber rest message fieldNum

mutual

/-- `rangeInContext` of `RangeExtensionsByMessage` on one message scope: visit
matching extensions of this scope (stopping when the visitor returns false),
then recurse into nested messages. Returns the list of descriptors passed to
the visitor, in visit order, together with the continue flag. -/
def rangeExtsInMsg : MessageD → GoStr → (FieldD → Bool) → List FieldD × Bool
  | .mk _ _ _ msgs _ exts, message, fn =>
    match rangeExtsInList exts message fn with
    | (visited, true) =>
      match rangeExtsInMsgList msgs message fn with
      | (visited2, c) => (visited ++ visited2, c)
    | (visited, false) => (visited, false)

/-- The scan of one extension-declaration list inside `rangeInContext`. -/
def rangeExtsInList : List FieldD → GoStr → (FieldD → Bool) → List FieldD × Bool
  | [], _, _ => ([], true)
  | x :: rest, message, fn =>
    if x.containingMessage == message then
      if fn x then
        match rangeExtsInList rest message fn with
        | (visited, c) => (x :: visited, c)
      else ([x], false)
    else rangeExtsInList rest message fn

/-- The loop over nested messages inside `rangeInContext`. -/
def rangeExtsInMsgList : List MessageD → GoStr → (FieldD → Bool) → List FieldD × Bool
  | [], _, _ => ([], true)
  | m :: rest, message, fn =>
    match rangeExtsInMsg m message fn with
    | (visited, true) =>
      match rangeExtsInMsgList rest message fn with
      | (visited2, c) => (visited ++ visited2, c)
    | (visited, false) => (visited, false)

end

/-- `rangeInContext` on a file scope (the body of the `RangeFiles` callback). -/
def rangeExtsInFile (f : FileD) (message : GoStr) (fn : FieldD → Bool) : List FieldD × Bool :=
  match rangeExtsInList f.extensions message fn with
  | (visited, true) =>
    match rangeExtsInMsgList f.messages message fn with
    | (visited2, c) => (visited ++ visited2, c)
  | (visited, false) => (visited, false)

/-- `RangeExtensionsByMessage` over a pool: files in pool order, depth-first
through each file's scopes, stopping early when the visitor returns false.
Returns the sequence of visitor invocations and the final continue flag. -/
def RangeExtensionsByMessage : List FileD → GoStr → (FieldD → Bool) → List FieldD × Bool
  | [], _, _ => ([], true)
  | f :: rest, message, fn =>
    match rangeExtsInFile f message fn with
    | (visited, true) =>
      match RangeExtensionsByMessage rest message fn with
      | (visited2, c) => (visited ++ visited2, c)
    | (visited, false) => (visited, false)

/-! ## Resolver composition layer (`ResolverFromPool`) -/

/-- A descriptor together with its `FullName()` (protoreflect descriptors carry
their fully-qualified name; the resolver adapter reads it via `FullName()`). -/
abbrev NamedDescriptor := Descriptor × GoStr

def NamedDescriptor.fullName (d : NamedDescriptor) : GoStr := d.2

/-- `ErrUnexpectedType`: a lookup resolved a descriptor of the wrong kind.
Exactly one of `url`/`name` is set, per how the lookup was made. -/
structure ErrUnexpectedType where
  url : GoStr
  name : GoStr
  expecting : DescriptorKind
  actual : DescriptorKind
  descriptor : Option NamedDescriptor

/-- `NewUnexpectedTypeError`: when `url` is empty the query is recorded as the
resolved descriptor's full name. Note: the Go constructor's struct literal
assigns `URL`, `Name`, `Expecting` and `Descriptor` but never assigns `Actual`,
which therefore stays at its zero value `DescriptorKind(0)` =
`DescriptorKindUnknown`. -/
def NewUnexpectedTypeError (expecting : DescriptorKind) (got : NamedDescriptor)
    (url : GoStr) : ErrUnexpectedType :=
  { url := url
    name := if url = [] then got.fullName else []
    expecting := expecting
    actual := DescriptorKind.unknown
    descriptor := some got }

/-- Errors produced by resolver lookups: the not-found sentinel, a wrapped
not-found carrying the queried name, or an unexpected-type error. -/
inductive ResolveErr where
  | notFound
  | wrappedNotFound (name : GoStr)
  | unexpectedType (e : ErrUnexpectedType)

/-- The `DescriptorPool` a `resolverFromPool` wraps, reduced to the one method
the `FindMessageByName` / `FindExtensionByName` adapters delegate to. -/
structure PoolModel where
  findDescriptorByName : GoStr → Except ResolveErr NamedDescriptor

/-- `resolverFromPool.FindMessageByName`: delegate to the pool, then check the
resolved descriptor is in fact a message. -/
def PoolModel.FindMessageByName (r : PoolModel) (name : GoStr) :
    Except ResolveErr MessageD :=
  match r.findDescriptorByName name with
  | .error e => .error e
  | .ok d =>
    match d.1 with
    | .message m => .ok m
    | _ => .error (.unexpectedType (NewUnexpectedTypeError .message d []))

/-- `resolverFromPool.FindExtensionByName`: delegate to the pool, then check
the resolved descriptor is a field descriptor with its extension flag set. -/
def PoolModel.FindExtensionByName (r : PoolModel) (name : GoStr) :
    Except ResolveErr FieldD :=
  match r.findDescriptorByName name with
  | .error e => .error e
  | .ok d =>
    match d.1 with
    | .field fld =>
      if fld.isExtension then .ok fld
      else .error (.unexpectedType (NewUnexpectedTypeError .extension (.field fld, d.2) []))
    | _ => .error (.unexpectedType (NewUnexpectedTypeError .extension d []))

/-! ## Declarations of a file, with their paths relative to the package

`msgDecls m` lists every descriptor declared inside message `m` paired with its
name path relative to `m`; `fileDecls f` lists every descriptor declared in
file `f` paired with its path relative to the file's package. -/

def enumValueDecls (enums : List EnumD) : List (List GoStr × Descriptor) :=
  enums.flatMap (fun e => e.values.map (fun v => ([v.name], Descriptor.enumValue v)))

mutual

def msgDecls : MessageD → List (List GoStr × Descriptor)
  | .mk _ fields oneofs msgs enums exts =>
    fields.map (fun f => ([f.name], Descriptor.field f))
    ++ oneofs.map (fun o => ([o.name], Descriptor.oneof o))
    ++ msgListDecls msgs
    ++ enums.map (fun e => ([e.name], Descriptor.enum e))
    ++ enumValueDecls enums
    ++ exts.map (fun x => ([x.name], Descriptor.field x))

def msgListDecls : List MessageD → List (List GoStr × Descriptor)
  | [] => []
  | m :: rest =>
    (([m.name], Descriptor.message m)
      :: (msgDecls m).map (fun pd => (m.name :: pd.1, pd.2)))
    ++ msgListDecls rest

end

def fileDecls (f : FileD) : List (List GoStr × Descriptor) :=
  msgListDecls f.messages
  ++ f.enums.map (fun e => ([e.name], Descriptor.enum e))
  ++ enumValueDecls f.enums
  ++ f.extensions.map (fun x => ([x.name], Descriptor.field x))
  ++ f.services.flatMap (fun s =>
      ([s.name], Descriptor.service s)
        :: s.methods.map (fun mth => ([s.name, mth.name], Descriptor.method mth)))

/-! ## Well-formedness of a descriptor tree

What the protobuf language guarantees for a valid file: within one declaration
scope all simple names (including the values of enums declared in that scope,
which live in the enclosing scope's namespace) are distinct, and no simple name
contains a dot. -/

def validName (n : GoStr) : Bool := decide ('.' ∉ n)

def enumValuesNames (enums : List EnumD) : List GoStr :=
  enums.flatMap (fun e => e.values.map (fun v => v.name))

def msgScopeNames (m : MessageD) : List GoStr :=
  m.fields.map (fun f => f.name) ++ m.oneofs.map (fun o => o.name)
  ++ m.messages.map MessageD.name ++ m.enums.map (fun e => e.name)
  ++ m.extensions.map (fun x => x.name) ++ enumValuesNames m.enums

mutual

def msgWF : MessageD → Bool
  | .mk n fields oneofs msgs enums exts =>
    decide (msgScopeNames (.mk n fields oneofs msgs enums exts)).Nodup
    && (msgScopeNames (.mk n fields oneofs msgs enums exts)).all validName
    && msgListWF msgs

def msgListWF : List MessageD → Bool
  | [] => true
  | m :: rest => msgWF m && msgListWF rest

end

def fileScopeNames (f : FileD) : List GoStr :=
  f.messages.map MessageD.name ++ f.enums.map (fun e => e.name)
  ++ f.extensions.map (fun x => x.name) ++ f.services.map (fun s => s.name)
  ++ enumValuesNames f.enums

def fileWF (f : FileD) : Bool :=
  decide (fileScopeNames f).Nodup
  && (fileScopeNames f).all validName
  && f.services.all (fun s =>
       decide (s.methods.map (fun mth => mth.name)).Nodup
       && (s.methods.map (fun mth => mth.name)).all validName)
  && msgListWF f.messages

/-- The dotted rendering of a path of name components. -/
def dottedName (parts : List GoStr) : GoStr := List.intercalate ['.'] parts

/-- The `FullName()` of a descriptor declared at relative path `path` in a file
with package `pkg` (the package, a dot when the package is nonempty, then the
dot-separated path). -/
def fullNameIn (pkg : GoStr) (path : List GoStr) : GoStr :=
  if pkg = [] then dottedName path else pkg ++ '.' :: dottedName path

/-! ## Flattened extension traversal order

`allExtsInMsg`/`allExtsInFile`/`allExtsInPool` list every extension declared in
a scope/file/pool in exactly the order `findExtension` and `rangeInContext`
traverse them: the scope's own declarations first, then depth-first through
nested messages; files in pool order. -/

mutual

def allExtsInMsg : MessageD → List FieldD
  | .mk _ _ _ msgs _ exts => exts ++ allExtsInMsgList msgs

def allExtsInMsgList : List MessageD → List FieldD
  | [] => []
  | m :: rest => allExtsInMsg m ++ allExtsInMsgList rest

end

def allExtsInFile (f : FileD) : List FieldD :=
  f.extensions ++ allExtsInMsgList f.messages

def allExtsInPool (pool : List FileD) : List FieldD :=
  pool.flatMap allExtsInFile

/-! ## Generic lemmas about name-keyed `find?` -/

theorem find?_name_eq_none {α : Type} (nm : α → GoStr) {l : List α} {n : GoStr}
    (h : n ∉ l.map nm) : l.find? (fun y => nm y == n) = none := by
  rw [List.find?_eq_none]
  intro x hx hbeq
  exact h (by
    rw [beq_iff_eq] at hbeq
    exact hbeq ▸ List.mem_map_of_mem nm hx)

theorem find?_name_of_mem {α : Type} (nm : α → GoStr) {l : List α} {x : α}
    (hx : x ∈ l) (hnd : (l.map nm).Nodup) : l.find? (fun y => nm y == nm x) = some x := by
  induction l with
  | nil => cases hx
  | cons y ys ih =>
    rcases List.mem_cons.mp hx with rfl | hmem
    · rw [List.find?_cons_of_pos _ (by simp)]
    · rw [List.map_cons, List.nodup_cons] at hnd
      have hne : (nm y == nm x) = false := by
        rw [beq_eq_false_iff_ne]
        intro he
        exact hnd.1 (he ▸ List.mem_map_of_mem nm hmem)
      rw [List.find?_cons_of_neg _ (by simp [hne]), ih hmem hnd.2]

/-! ## The extension search returns the first match in traversal order -/

mutual

theorem findExtInMsg_eq (m : MessageD) (message : GoStr) (n : Nat) :
    findExtInMsg m message n = (allExtsInMsg m).find? (extMatches message n) := by
  match m with
  | .mk nm fs os msgs es exts =>
    rw [findExtInMsg, allExtsInMsg, List.find?_append,
      findExtInMsgList_eq msgs message n]
    cases exts.find? (extMatches message n) <;> simp [Option.orElse]

theorem findExtInMsgList_eq (l : List MessageD) (message : GoStr) (n : Nat) :
    findExtInMsgList l message n = (allExtsInMsgList l).find? (extMatches message n) := by
  match l with
  | [] => rfl
  | m :: rest =>
    rw [findExtInMsgList, allExtsInMsgList, List.find?_append,
      findExtInMsg_eq m message n, findExtInMsgList_eq rest message n]
    cases (allExtsInMsg m).find? (extMatches message n) <;> simp [Option.orElse]

end

theorem findExtInFile_eq (f : FileD) (message : GoStr) (n : Nat) :
    FindExtensionByNumberInFile f message n = (allExtsInFile f).find? (extMatches message n) := by
  rw [FindExtensionByNumberInFile, allExtsInFile, List.find?_append,
    findExtInMsgList_eq f.messages message n]
  cases f.extensions.find? (extMatches message n) <;> simp [Option.orElse]

theorem findExtInPool_eq (pool : List FileD) (message : GoStr) (n : Nat) :
    FindExtensionByNumber pool message n = (allExtsInPool pool).find? (extMatches message n) := by
  induction pool with
  | nil => rfl
  | cons f rest ih =>
    rw [FindExtensionByNumber, allExtsInPool, List.flatMap_cons, List.find?_append,
      findExtInFile_eq f message n, ih]
    cases (allExtsInFile f).find? (extMatches message n) <;> simp [Option.orElse, allExtsInPool]

/-! ## The range traversal with a non-stopping visitor visits exactly the
matching extensions in traversal order -/

theorem rangeExtsInList_true (exts : List FieldD) (message : GoStr) :
    rangeExtsInList exts message (fun _ => true)
      = (exts.filter (fun x => x.containingMessage == message), true) := by
  induction exts with
  | nil => rfl
  | cons x rest ih =>
    rw [rangeExtsInList, List.filter_cons]
    by_cases h : x.containingMessage == message <;> simp [h, ih]

mutual

theorem rangeExtsInMsg_true (m : MessageD) (message : GoStr) :
    rangeExtsInMsg m message (fun _ => true)
      = ((allExtsInMsg m).filter (fun x => x.containingMessage == message), true) := by
  match m with
  | .mk nm fs os msgs es exts =>
    rw [rangeExtsInMsg, allExtsInMsg, rangeExtsInList_true,
      rangeExtsInMsgList_true msgs message, List.filter_append]

theorem rangeExtsInMsgList_true (l : List MessageD) (message : GoStr) :
    rangeExtsInMsgList l message (fun _ => true)
      = ((allExtsInMsgList l).filter (fun x => x.containingMessage == message), true) := by
  match l with
  | [] => rfl
  | m :: rest =>
    rw [rangeExtsInMsgList, allExtsInMsgList, rangeExtsInMsg_true m message,
      rangeExtsInMsgList_true rest message, List.filter_append]

end

theorem rangeExtsInFile_true (f : FileD) (message : GoStr) :
    rangeExtsInFile f message (fun _ => true)
      = ((allExtsInFile f).filter (fun x => x.containingMessage == message), true) := by
  rw [rangeExtsInFile, allExtsInFile, rangeExtsInList_true,
    rangeExtsInMsgList_true f.messages message, List.filter_append]

theorem rangeExtsInPool_true (pool : List FileD) (message : GoStr) :
    RangeExtensionsByMessage pool message (fun _ => true)
      = ((allExtsInPool pool).filter (fun x => x.containingMessage == message), true) := by
  induction pool with
  | nil => rfl
  | cons f rest ih =>
    rw [RangeExtensionsByMessage, rangeExtsInFile_true f message, ih]
    simp [allExtsInPool, List.filter_append]

/-! ## Claim theorems for the resolution subsystem -/

/-- Claim C3: an extension declared anywhere in the pool with containing
message `M` and number `n` makes `FindExtensionByNumber` return a matching
extension — precisely the first match in file order then declaration order
(i.e. `find?` over the flattened traversal) — and is visited exactly once by
`RangeExtensionsByMessage` with a non-stopping visitor; when nothing matches,
`FindExtensionByNumber` returns `none` rather than an error. -/
theorem findExtensionByNumber_spec (pool : List FileD) (e : FieldD) (M : GoStr) (n : Nat)
    (he : e ∈ allExtsInPool pool) (hcm : e.containingMessage = M) (hn : e.number = n)
    (hcount : (allExtsInPool pool).count e = 1) :
    (∃ e', FindExtensionByNumber pool M n = some e'
        ∧ e'.number = n ∧ e'.containingMessage = M)
    ∧ FindExtensionByNumber pool M n = (allExtsInPool pool).find? (extMatches M n)
    ∧ (RangeExtensionsByMessage pool M (fun _ => true)).1.count e = 1
    ∧ (∀ pool' M' n', (∀ x ∈ allExtsInPool pool', ¬(x.number = n' ∧ x.containingMessage = M')) →
        FindExtensionByNumber pool' M' n' = none) := by
  refine ⟨?_, findExtInPool_eq pool M n, ?_, ?_⟩
  · have hsome : ((allExtsInPool pool).find? (extMatches M n)).isSome := by
      rw [List.find?_isSome]
      exact ⟨e, he, by simp [extMatches, hcm, hn]⟩
    rcases Option.isSome_iff_exists.mp hsome with ⟨e', he'⟩
    have hmatch := List.find?_some he'
    simp only [extMatches, Bool.and_eq_true, beq_iff_eq] at hmatch
    exact ⟨e', by rw [findExtInPool_eq pool M n, he'], hmatch.1, hmatch.2⟩
  · rw [rangeExtsInPool_true]
    simpa [List.count_filter, hcm] using hcount
  · intro pool' M' n' hnone
    rw [findExtInPool_eq, List.find?_eq_none]
    intro x hx hbeq
    simp only [extMatches, Bool.and_eq_true, beq_iff_eq] at hbeq
    exact hnone x hx hbeq

/-- Witness for C3 at a concrete pool: one file whose only message nests an
extension of `M` with number 10. -/
theorem findExtensionByNumber_spec_witness :
    ∃ e', FindExtensionByNumber
        [⟨['f'], [MessageD.mk ['A'] [] [] [] [] [⟨['x'], 10, true, ['M']⟩]], [], [], []⟩]
        ['M'] 10 = some e'
      ∧ e'.number = 10 ∧ e'.containingMessage = ['M'] :=
  (findExtensionByNumber_spec
    [⟨['f'], [MessageD.mk ['A'] [] [] [] [] [⟨['x'], 10, true, ['M']⟩]], [], [], []⟩]
    ⟨['x'], 10, true, ['M']⟩ ['M'] 10 (by decide) rfl rfl (by decide)).1

/-- Claim C9: `KindOf` is total and deterministic (each descriptor is assigned
exactly one kind, `unknown` for unrecognized implementations), and a field
descriptor with its extension flag set classifies as extension and never as
field, while one without the flag classifies as field. -/
theorem kindOf_total_deterministic :
    (∀ d : Descriptor, ∃ k : DescriptorKind, KindOf d = k ∧ ∀ k', KindOf d = k' → k' = k)
    ∧ KindOf .foreign = .unknown
    ∧ (∀ fd : FieldD, fd.isExtension = true →
        KindOf (.field fd) = .extension ∧ KindOf (.field fd) ≠ .field)
    ∧ (∀ fd : FieldD, fd.isExtension = false → KindOf (.field fd) = .field) := by
  refine ⟨fun d => ⟨KindOf d, rfl, fun k' h => h.symm⟩, rfl, ?_, ?_⟩
  · intro fd h
    constructor <;> simp [KindOf, h]
  · intro fd h
    simp [KindOf, h]

/-- Witness for C9 at concrete field descriptors. -/
theorem kindOf_total_deterministic_witness :
    KindOf (.field ⟨['x'], 1, true, []⟩) = .extension
    ∧ KindOf (.field ⟨['y'], 2, false, []⟩) = .field :=
  ⟨(kindOf_total_deterministic.2.2.1 ⟨['x'], 1, true, []⟩ rfl).1,
   kindOf_total_deterministic.2.2.2 ⟨['y'], 2, false, []⟩ rfl⟩

/-! ## Correctness of `FindDescriptorByNameInFile` (claim C2) -/

theorem mem_later_not_earlier {α : Type} {X Y : List α} (h : (X ++ Y).Nodup) {n : α}
    (hn : n ∈ Y) : n ∉ X :=
  fun hx => List.disjoint_of_nodup_append h hx hn

theorem isPrefixOf_self_append (p t : GoStr) : p.isPrefixOf (p ++ t) = true := by
  induction p with
  | nil => simp [List.isPrefixOf]
  | cons c cs ih => simp [List.isPrefixOf, ih]

/-- Scanning enums for a value finds it when the name is unambiguous among all
values of all the enums of the scope. -/
theorem findValueInEnums_of_mem {enums : List EnumD} {e : EnumD} {v : EnumValueD}
    (he : e ∈ enums) (hv : v ∈ e.values) (hnd : (enumValuesNames enums).Nodup) :
    findValueInEnums enums v.name = some (.enumValue v) := by
  induction enums with
  | nil => cases he
  | cons e0 rest ih =>
    have hnd' : (e0.values.map (fun x => x.name) ++ enumValuesNames rest).Nodup := by
      simpa [enumValuesNames] using hnd
    rcases List.mem_cons.mp he with rfl | hmem
    · have h1 : e.values.find? (fun x => x.name == v.name) = some v :=
        find?_name_of_mem (fun x : EnumValueD => x.name) hv hnd'.of_append_left
      rw [findValueInEnums, h1]
      rfl
    · have hnone : v.name ∉ e0.values.map (fun x : EnumValueD => x.name) :=
        mem_later_not_earlier hnd'
          (by
            simp only [enumValuesNames, List.mem_flatMap]
            exact ⟨e, hmem, List.mem_map_of_mem _ hv⟩)
      have h1 : e0.values.find? (fun x => x.name == v.name) = none :=
        find?_name_eq_none (fun x : EnumValueD => x.name) hnone
      rw [findValueInEnums, h1, ih hmem hnd'.of_append_right]
      rfl

theorem msgListWF_mem {l : List MessageD} (h : msgListWF l = true) {m : MessageD}
    (hm : m ∈ l) : msgWF m = true := by
  induction l with
  | nil => cases hm
  | cons m0 rest ih =>
    rw [msgListWF, Bool.and_eq_true] at h
    rcases List.mem_cons.mp hm with rfl | hmem
    · exact h.1
    · exact ih h.2 hmem

/-- Membership in the declarations of a message list: the message itself (one
component) or a declaration inside it (prefixed with its name). -/
theorem mem_msgListDecls {l : List MessageD} {p : List GoStr} {d : Descriptor} :
    (p, d) ∈ msgListDecls l
      ↔ ∃ m ∈ l, (p = [m.name] ∧ d = .message m)
          ∨ ∃ p', p = m.name :: p' ∧ (p', d) ∈ msgDecls m := by
  induction l with
  | nil => simp [msgListDecls]
  | cons m rest ih =>
    rw [msgListDecls, List.mem_append, List.mem_cons, ih]
    constructor
    · rintro ((h | h) | ⟨m', hm', h⟩)
      · exact ⟨m, List.mem_cons_self m rest, Or.inl (by simpa [Prod.ext_iff] using h)⟩
      · rcases List.mem_map.mp h with ⟨pd, hpd, heq⟩
        refine ⟨m, List.mem_cons_self m rest, Or.inr ⟨pd.1, ?_, ?_⟩⟩
        · exact (Prod.ext_iff.mp heq.symm).1
        · have : d = pd.2 := (Prod.ext_iff.mp heq.symm).2
          exact this ▸ hpd
      · exact ⟨m', List.mem_cons_of_mem m hm', h⟩
    · rintro ⟨m', hm', h⟩
      rcases List.mem_cons.mp hm' with rfl | hmem
      · rcases h with ⟨rfl, rfl⟩ | ⟨p', rfl, hp'⟩
        · exact Or.inl (Or.inl rfl)
        · exact Or.inl (Or.inr (List.mem_map.mpr ⟨(p', d), hp', rfl⟩))
      · exact Or.inr ⟨m', hmem, h⟩

/-- Every declaration inside a well-formed message resolves to itself via
`findSymbolInMessage`, its path is nonempty, and every path component is a
valid (dot-free) name. -/
theorem findSymbolInMessage_decls (m : MessageD) (hwf : msgWF m = true) :
    ∀ p d, (p, d) ∈ msgDecls m →
      findSymbolInMessage p m = some d ∧ p ≠ [] ∧ ∀ c ∈ p, validName c = true := by
  match m with
  | .mk nm fs os msgs es exts =>
    intro p d hmem
    rw [msgWF, Bool.and_eq_true, Bool.and_eq_true] at hwf
    obtain ⟨⟨hnodup0, hvalid0⟩, hlist⟩ := hwf
    rw [decide_eq_true_eq] at hnodup0
    rw [List.all_eq_true] at hvalid0
    have hnodup : ((fs.map fun x : FieldD => x.name) ++ (os.map fun x : OneofD => x.name)
        ++ msgs.map MessageD.name ++ (es.map fun x : EnumD => x.name)
        ++ (exts.map fun x : FieldD => x.name) ++ enumValuesNames es).Nodup := hnodup0
    have hvalid : ∀ c ∈ (fs.map fun x : FieldD => x.name) ++ (os.map fun x : OneofD => x.name)
        ++ msgs.map MessageD.name ++ (es.map fun x : EnumD => x.name)
        ++ (exts.map fun x : FieldD => x.name) ++ enumValuesNames es,
        validName c = true := hvalid0
    rw [msgDecls] at hmem
    simp only [List.mem_append] at hmem
    rcases hmem with ((((hf | ho) | hm) | he) | hev) | hx
    · -- a direct field
      obtain ⟨f, hfm, heq⟩ := List.mem_map.mp hf
      obtain ⟨rfl, rfl⟩ : [f.name] = p ∧ Descriptor.field f = d := Prod.mk.injEq .. ▸ heq
      have hA : (fs.map fun x : FieldD => x.name).Nodup :=
        hnodup.of_append_left.of_append_left.of_append_left.of_append_left.of_append_left
      have h1 : fs.find? (fun y => y.name == f.name) = some f :=
        find?_name_of_mem (fun x : FieldD => x.name) hfm hA
      refine ⟨?_, by simp, ?_⟩
      · rw [findSymbolInMessage]
        simp [MessageD.fields, h1]
      · intro c hc
        rw [List.mem_singleton] at hc
        exact hc ▸ hvalid _ (by simp [List.mem_append, List.mem_map_of_mem _ hfm])
    · -- a direct oneof
      obtain ⟨o, hom, heq⟩ := List.mem_map.mp ho
      obtain ⟨rfl, rfl⟩ : [o.name] = p ∧ Descriptor.oneof o = d := Prod.mk.injEq .. ▸ heq
      have hAB : ((fs.map fun x : FieldD => x.name) ++ (os.map fun x : OneofD => x.name)).Nodup :=
        hnodup.of_append_left.of_append_left.of_append_left.of_append_left
      have hnA : o.name ∉ fs.map fun x : FieldD => x.name :=
        mem_later_not_earlier hAB (List.mem_map_of_mem _ hom)
      have h0 : fs.find? (fun y => y.name == o.name) = none :=
        find?_name_eq_none (fun x : FieldD => x.name) hnA
      have h1 : os.find? (fun y => y.name == o.name) = some o :=
        find?_name_of_mem (fun x : OneofD => x.name) hom hAB.of_append_right
      refine ⟨?_, by simp, ?_⟩
      · rw [findSymbolInMessage]
        simp [MessageD.fields, MessageD.oneofs, h0, h1]
      · intro c hc
        rw [List.mem_singleton] at hc
        exact hc ▸ hvalid _ (by simp [List.mem_append, List.mem_map_of_mem _ hom])
    · -- a nested message, or a declaration inside one
      obtain ⟨m', hm'm, hshape⟩ := mem_msgListDecls.mp hm
      have hABC : ((fs.map fun x : FieldD => x.name) ++ (os.map fun x : OneofD => x.name)
          ++ msgs.map MessageD.name).Nodup :=
        hnodup.of_append_left.of_append_left.of_append_left
      have hnAB : m'.name ∉ (fs.map fun x : FieldD => x.name) ++ (os.map fun x : OneofD => x.name) :=
        mem_later_not_earlier hABC (List.mem_map_of_mem _ hm'm)
      rw [List.mem_append] at hnAB
      push_neg at hnAB
      have h0 : fs.find? (fun y => y.name == m'.name) = none :=
        find?_name_eq_none (fun x : FieldD => x.name) hnAB.1
      have h1 : os.find? (fun y => y.name == m'.name) = none :=
        find?_name_eq_none (fun x : OneofD => x.name) hnAB.2
      have h2 : msgs.find? (fun y => y.name == m'.name) = some m' :=
        find?_name_of_mem MessageD.name hm'm hABC.of_append_right
      have hvn : validName m'.name = true :=
        hvalid _ (by simp [List.mem_append, List.mem_map_of_mem _ hm'm])
      rcases hshape with ⟨rfl, rfl⟩ | ⟨p', rfl, hp'⟩
      · refine ⟨?_, by simp, ?_⟩
        · rw [findSymbolInMessage]
          simp [MessageD.fields, MessageD.oneofs, MessageD.messages, h0, h1, h2]
        · intro c hc
          rw [List.mem_singleton] at hc
          exact hc ▸ hvn
      · have hrec := findSymbolInMessage_decls m' (msgListWF_mem hlist hm'm) p' d hp'
        obtain ⟨hfind', hne', hval'⟩ := hrec
        obtain ⟨q, qs, rfl⟩ : ∃ q qs, p' = q :: qs := by
          cases p' with
          | nil => exact absurd rfl hne'
          | cons q qs => exact ⟨q, qs, rfl⟩
        refine ⟨?_, by simp, ?_⟩
        · rw [findSymbolInMessage]
          · simp only [MessageD.messages, h2]
            exact hfind'
          · exact fun h => List.noConfusion h
        · intro c hc
          rcases List.mem_cons.mp hc with rfl | hc'
          · exact hvn
          · exact hval' c hc'
    · -- a nested enum
      obtain ⟨e, hem, heq⟩ := List.mem_map.mp he
      obtain ⟨rfl, rfl⟩ : [e.name] = p ∧ Descriptor.enum e = d := Prod.mk.injEq .. ▸ heq
      have hABCD : ((fs.map fun x : FieldD => x.name) ++ (os.map fun x : OneofD => x.name)
          ++ msgs.map MessageD.name ++ (es.map fun x : EnumD => x.name)).Nodup :=
        hnodup.of_append_left.of_append_left
      have hnABC : e.name ∉ (fs.map fun x : FieldD => x.name) ++ (os.map fun x : OneofD => x.name)
          ++ msgs.map MessageD.name :=
        mem_later_not_earlier hABCD (List.mem_map_of_mem _ hem)
      simp only [List.mem_append, not_or] at hnABC
      have h0 : fs.find? (fun y => y.name == e.name) = none :=
        find?_name_eq_none (fun x : FieldD => x.name) hnABC.1.1
      have h1 : os.find? (fun y => y.name == e.name) = none :=
        find?_name_eq_none (fun x : OneofD => x.name) hnABC.1.2
      have h2 : msgs.find? (fun y => y.name == e.name) = none :=
        find?_name_eq_none MessageD.name hnABC.2
      have h3 : es.find? (fun y => y.name == e.name) = some e :=
        find?_name_of_mem (fun x : EnumD => x.name) hem hABCD.of_append_right
      refine ⟨?_, by simp, ?_⟩
      · rw [findSymbolInMessage]
        simp [MessageD.fields, MessageD.oneofs, MessageD.messages, MessageD.enums, h0, h1, h2, h3]
      · intro c hc
        rw [List.mem_singleton] at hc
        exact hc ▸ hvalid _ (by simp [List.mem_append, List.mem_map_of_mem _ hem])
    · -- a value of a nested enum
      simp only [enumValueDecls, List.mem_flatMap, List.mem_map] at hev
      obtain ⟨e, hem, v, hvm, heq⟩ := hev
      obtain ⟨rfl, rfl⟩ : [v.name] = p ∧ Descriptor.enumValue v = d := Prod.mk.injEq .. ▸ heq
      have hvF : v.name ∈ enumValuesNames es := by
        simp only [enumValuesNames, List.mem_flatMap]
        exact ⟨e, hem, List.mem_map_of_mem _ hvm⟩
      have hnABCDE : v.name ∉ (fs.map fun x : FieldD => x.name) ++ (os.map fun x : OneofD => x.name)
          ++ msgs.map MessageD.name ++ (es.map fun x : EnumD => x.name)
          ++ (exts.map fun x : FieldD => x.name) :=
        mem_later_not_earlier hnodup hvF
      simp only [List.mem_append, not_or] at hnABCDE
      have h0 : fs.find? (fun y => y.name == v.name) = none :=
        find?_name_eq_none (fun x : FieldD => x.name) hnABCDE.1.1.1.1
      have h1 : os.find? (fun y => y.name == v.name) = none :=
        find?_name_eq_none (fun x : OneofD => x.name) hnABCDE.1.1.1.2
      have h2 : msgs.find? (fun y => y.name == v.name) = none :=
        find?_name_eq_none MessageD.name hnABCDE.1.1.2
      have h3 : es.find? (fun y => y.name == v.name) = none :=
        find?_name_eq_none (fun x : EnumD => x.name) hnABCDE.1.2
      have h4 : exts.find? (fun y => y.name == v.name) = none :=
        find?_name_eq_none (fun x : FieldD => x.name) hnABCDE.2
      have h5 : findValueInEnums es v.name = some (.enumValue v) :=
        findValueInEnums_of_mem hem hvm hnodup.of_append_right
      refine ⟨?_, by simp, ?_⟩
      · rw [findSymbolInMessage]
        simp [MessageD.fields, MessageD.oneofs, MessageD.messages, MessageD.enums,
          MessageD.extensions, h0, h1, h2, h3, h4, h5]
      · intro c hc
        rw [List.mem_singleton] at hc
        exact hc ▸ hvalid _ (by simp [List.mem_append, hvF])
    · -- a nested extension
      obtain ⟨x, hxm, heq⟩ := List.mem_map.mp hx
      obtain ⟨rfl, rfl⟩ : [x.name] = p ∧ Descriptor.field x = d := Prod.mk.injEq .. ▸ heq
      have hABCDE : ((fs.map fun x : FieldD => x.name) ++ (os.map fun x : OneofD => x.name)
          ++ msgs.map MessageD.name ++ (es.map fun x : EnumD => x.name)
          ++ (exts.map fun x : FieldD => x.name)).Nodup :=
        hnodup.of_append_left
      have hnABCD : x.name ∉ (fs.map fun y : FieldD => y.name) ++ (os.map fun y : OneofD => y.name)
          ++ msgs.map MessageD.name ++ (es.map fun y : EnumD => y.name) :=
        mem_later_not_earlier hABCDE (List.mem_map_of_mem _ hxm)
      simp only [List.mem_append, not_or] at hnABCD
      have h0 : fs.find? (fun y => y.name == x.name) = none :=
        find?_name_eq_none (fun y : FieldD => y.name) hnABCD.1.1.1
      have h1 : os.find? (fun y => y.name == x.name) = none :=
        find?_name_eq_none (fun y : OneofD => y.name) hnABCD.1.1.2
      have h2 : msgs.find? (fun y => y.name == x.name) = none :=
        find?_name_eq_none MessageD.name hnABCD.1.2
      have h3 : es.find? (fun y => y.name == x.name) = none :=
        find?_name_eq_none (fun y : EnumD => y.name) hnABCD.2
      have h4 : exts.find? (fun y => y.name == x.name) = some x :=
        find?_name_of_mem (fun y : FieldD => y.name) hxm hABCDE.of_append_right
      refine ⟨?_, by simp, ?_⟩
      · rw [findSymbolInMessage]
        simp [MessageD.fields, MessageD.oneofs, MessageD.messages, MessageD.enums,
          MessageD.extensions, h0, h1, h2, h3, h4]
      · intro c hc
        rw [List.mem_singleton] at hc
        exact hc ▸ hvalid _ (by simp [List.mem_append, List.mem_map_of_mem _ hxm])
termination_by sizeOf m
decreasing_by
  have h := List.sizeOf_lt_of_mem hm'm
  simp only [MessageD.mk.sizeOf_spec]
  omega

theorem mem_earlier_not_later {α : Type} {X Y : List α} (h : (X ++ Y).Nodup) {n : α}
    (hn : n ∈ X) : n ∉ Y :=
  fun hy => List.disjoint_of_nodup_append h hn hy

/-- Every declaration of a well-formed file resolves to itself via
`findSymbolInFile`, its path is nonempty, and every path component is a valid
(dot-free) name. -/
theorem findSymbolInFile_decls (f : FileD) (hwf : fileWF f = true) :
    ∀ p d, (p, d) ∈ fileDecls f →
      findSymbolInFile p f = some d ∧ p ≠ [] ∧ ∀ c ∈ p, validName c = true := by
  intro p d hmem
  rw [fileWF, Bool.and_eq_true, Bool.and_eq_true, Bool.and_eq_true] at hwf
  obtain ⟨⟨⟨hnodup0, hvalid0⟩, hsvcs0⟩, hlist⟩ := hwf
  rw [decide_eq_true_eq] at hnodup0
  rw [List.all_eq_true] at hvalid0
  rw [List.all_eq_true] at hsvcs0
  have hnodup : (f.messages.map MessageD.name ++ (f.enums.map fun x : EnumD => x.name)
      ++ (f.extensions.map fun x : FieldD => x.name) ++ (f.services.map fun x : ServiceD => x.name)
      ++ enumValuesNames f.enums).Nodup := hnodup0
  have hvalid : ∀ c ∈ f.messages.map MessageD.name ++ (f.enums.map fun x : EnumD => x.name)
      ++ (f.extensions.map fun x : FieldD => x.name) ++ (f.services.map fun x : ServiceD => x.name)
      ++ enumValuesNames f.enums, validName c = true := hvalid0
  rw [fileDecls] at hmem
  simp only [List.mem_append] at hmem
  rcases hmem with (((hm | he) | hev) | hx) | hs
  · -- a top-level message, or a declaration inside one
    obtain ⟨m', hm'm, hshape⟩ := mem_msgListDecls.mp hm
    have hA : (f.messages.map MessageD.name).Nodup :=
      hnodup.of_append_left.of_append_left.of_append_left.of_append_left
    have h2 : f.messages.find? (fun y => y.name == m'.name) = some m' :=
      find?_name_of_mem MessageD.name hm'm hA
    have hvn : validName m'.name = true :=
      hvalid _ (by simp [List.mem_append, List.mem_map_of_mem _ hm'm])
    have hnD : m'.name ∉ f.services.map fun x : ServiceD => x.name := by
      refine mem_earlier_not_later hnodup.of_append_left ?_
      simp [List.mem_append, List.mem_map_of_mem _ hm'm]
    have h0 : f.services.find? (fun y => y.name == m'.name) = none :=
      find?_name_eq_none (fun x : ServiceD => x.name) hnD
    rcases hshape with ⟨rfl, rfl⟩ | ⟨p', rfl, hp'⟩
    · refine ⟨?_, by simp, ?_⟩
      · rw [findSymbolInFile]
        simp [h2]
      · intro c hc
        rw [List.mem_singleton] at hc
        exact hc ▸ hvn
    · have hrec := findSymbolInMessage_decls m' (msgListWF_mem hlist hm'm) p' d hp'
      obtain ⟨hfind', hne', hval'⟩ := hrec
      obtain ⟨q, qs, rfl⟩ : ∃ q qs, p' = q :: qs := by
        cases p' with
        | nil => exact absurd rfl hne'
        | cons q qs => exact ⟨q, qs, rfl⟩
      have hcomps : ∀ c ∈ m'.name :: q :: qs, validName c = true := by
        intro c hc
        rcases List.mem_cons.mp hc with rfl | hc'
        · exact hvn
        · exact hval' c hc'
      cases qs with
      | nil =>
        refine ⟨?_, by simp, hcomps⟩
        rw [findSymbolInFile]
        simp only [h0, h2]
        exact hfind'
      | cons q2 qs2 =>
        refine ⟨?_, by simp, hcomps⟩
        rw [findSymbolInFile]
        · simp only [h2]
          exact hfind'
        · exact fun h => List.noConfusion h
        · exact fun a h => List.noConfusion (List.cons.injEq .. ▸ h).2
  · -- a top-level enum
    obtain ⟨e, hem, heq⟩ := List.mem_map.mp he
    obtain ⟨rfl, rfl⟩ : [e.name] = p ∧ Descriptor.enum e = d := Prod.mk.injEq .. ▸ heq
    have hAB : (f.messages.map MessageD.name ++ (f.enums.map fun x : EnumD => x.name)).Nodup :=
      hnodup.of_append_left.of_append_left.of_append_left
    have hnA : e.name ∉ f.messages.map MessageD.name :=
      mem_later_not_earlier hAB (List.mem_map_of_mem _ hem)
    have h0 : f.messages.find? (fun y => y.name == e.name) = none :=
      find?_name_eq_none MessageD.name hnA
    have h1 : f.enums.find? (fun y => y.name == e.name) = some e :=
      find?_name_of_mem (fun x : EnumD => x.name) hem hAB.of_append_right
    refine ⟨?_, by simp, ?_⟩
    · rw [findSymbolInFile]
      simp [h0, h1]
    · intro c hc
      rw [List.mem_singleton] at hc
      exact hc ▸ hvalid _ (by simp [List.mem_append, List.mem_map_of_mem _ hem])
  · -- a value of a top-level enum
    simp only [enumValueDecls, List.mem_flatMap, List.mem_map] at hev
    obtain ⟨e, hem, v, hvm, heq⟩ := hev
    obtain ⟨rfl, rfl⟩ : [v.name] = p ∧ Descriptor.enumValue v = d := Prod.mk.injEq .. ▸ heq
    have hvE : v.name ∈ enumValuesNames f.enums := by
      simp only [enumValuesNames, List.mem_flatMap]
      exact ⟨e, hem, List.mem_map_of_mem _ hvm⟩
    have hnABCD : v.name ∉ f.messages.map MessageD.name ++ (f.enums.map fun x : EnumD => x.name)
        ++ (f.extensions.map fun x : FieldD => x.name)
        ++ (f.services.map fun x : ServiceD => x.name) :=
      mem_later_not_earlier hnodup hvE
    simp only [List.mem_append, not_or] at hnABCD
    have h0 : f.messages.find? (fun y => y.name == v.name) = none :=
      find?_name_eq_none MessageD.name hnABCD.1.1.1
    have h1 : f.enums.find? (fun y => y.name == v.name) = none :=
      find?_name_eq_none (fun x : EnumD => x.name) hnABCD.1.1.2
    have h2 : f.extensions.find? (fun y => y.name == v.name) = none :=
      find?_name_eq_none (fun x : FieldD => x.name) hnABCD.1.2
    have h3 : f.services.find? (fun y => y.name == v.name) = none :=
      find?_name_eq_none (fun x : ServiceD => x.name) hnABCD.2
    have h4 : findValueInEnums f.enums v.name = some (.enumValue v) :=
      findValueInEnums_of_mem hem hvm hnodup.of_append_right
    refine ⟨?_, by simp, ?_⟩
    · rw [findSymbolInFile]
      simp [h0, h1, h2, h3, h4]
    · intro c hc
      rw [List.mem_singleton] at hc
      exact hc ▸ hvalid _ (by simp [List.mem_append, hvE])
  · -- a top-level extension
    obtain ⟨x, hxm, heq⟩ := List.mem_map.mp hx
    obtain ⟨rfl, rfl⟩ : [x.name] = p ∧ Descriptor.field x = d := Prod.mk.injEq .. ▸ heq
    have hABC : (f.messages.map MessageD.name ++ (f.enums.map fun y : EnumD => y.name)
        ++ (f.extensions.map fun y : FieldD => y.name)).Nodup :=
      hnodup.of_append_left.of_append_left
    have hnAB : x.name ∉ f.messages.map MessageD.name ++ (f.enums.map fun y : EnumD => y.name) :=
      mem_later_not_earlier hABC (List.mem_map_of_mem _ hxm)
    simp only [List.mem_append, not_or] at hnAB
    have h0 : f.messages.find? (fun y => y.name == x.name) = none :=
      find?_name_eq_none MessageD.name hnAB.1
    have h1 : f.enums.find? (fun y => y.name == x.name) = none :=
      find?_name_eq_none (fun y : EnumD => y.name) hnAB.2
    have h2 : f.extensions.find? (fun y => y.name == x.name) = some x :=
      find?_name_of_mem (fun y : FieldD => y.name) hxm hABC.of_append_right
    refine ⟨?_, by simp, ?_⟩
    · rw [findSymbolInFile]
      simp [h0, h1, h2]
    · intro c hc
      rw [List.mem_singleton] at hc
      exact hc ▸ hvalid _ (by simp [List.mem_append, List.mem_map_of_mem _ hxm])
  · -- a service, or one of its methods
    simp only [List.mem_flatMap, List.mem_cons, List.mem_map] at hs
    obtain ⟨s, hsm, hshape⟩ := hs
    have hABCD : (f.messages.map MessageD.name ++ (f.enums.map fun y : EnumD => y.name)
        ++ (f.extensions.map fun y : FieldD => y.name)
        ++ (f.services.map fun y : ServiceD => y.name)).Nodup :=
      hnodup.of_append_left
    have hnABC : s.name ∉ f.messages.map MessageD.name ++ (f.enums.map fun y : EnumD => y.name)
        ++ (f.extensions.map fun y : FieldD => y.name) :=
      mem_later_not_earlier hABCD (List.mem_map_of_mem _ hsm)
    simp only [List.mem_append, not_or] at hnABC
    have h0 : f.messages.find? (fun y => y.name == s.name) = none :=
      find?_name_eq_none MessageD.name hnABC.1.1
    have h1 : f.enums.find? (fun y => y.name == s.name) = none :=
      find?_name_eq_none (fun y : EnumD => y.name) hnABC.1.2
    have h2 : f.extensions.find? (fun y => y.name == s.name) = none :=
      find?_name_eq_none (fun y : FieldD => y.name) hnABC.2
    have h3 : f.services.find? (fun y => y.name == s.name) = some s :=
      find?_name_of_mem (fun y : ServiceD => y.name) hsm hABCD.of_append_right
    have hvn : validName s.name = true :=
      hvalid _ (by simp [List.mem_append, List.mem_map_of_mem _ hsm])
    have hsvc := hsvcs0 s hsm
    rw [Bool.and_eq_true, decide_eq_true_eq, List.all_eq_true] at hsvc
    rcases hshape with heq | ⟨mth, hmthm, heq⟩
    · obtain ⟨rfl, rfl⟩ : [s.name] = p ∧ Descriptor.service s = d := Prod.mk.injEq .. ▸ heq.symm
      refine ⟨?_, by simp, ?_⟩
      · rw [findSymbolInFile]
        simp [h0, h1, h2, h3]
      · intro c hc
        rw [List.mem_singleton] at hc
        exact hc ▸ hvn
    · obtain ⟨rfl, rfl⟩ : [s.name, mth.name] = p ∧ Descriptor.method mth = d :=
        Prod.mk.injEq .. ▸ heq
      have h4 : s.methods.find? (fun y => y.name == mth.name) = some mth :=
        find?_name_of_mem (fun y : MethodD => y.name) hmthm hsvc.1
      refine ⟨?_, by simp, ?_⟩
      · rw [findSymbolInFile]
        simp [h3, h4]
      · intro c hc
        rcases List.mem_cons.mp hc with rfl | hc'
        · exact hvn
        · rw [List.mem_singleton] at hc'
          exact hc' ▸ hsvc.2 _ (List.mem_map_of_mem _ hmthm)

/-- Claim C2: for every descriptor `d` declared in a well-formed file
(top-level or nested messages, fields, oneofs, enums, enum values looked up in
their enclosing scope, extensions, services and service methods),
`FindDescriptorByNameInFile` applied to `d`'s fully-qualified name returns `d`;
and for any name that does not start with a file's declared package prefix it
returns `none` immediately, regardless of the file's contents. -/
theorem findDescriptorByNameInFile_correct (f : FileD) (hwf : fileWF f = true) :
    (∀ pd ∈ fileDecls f,
        FindDescriptorByNameInFile f (fullNameIn f.package pd.1) = some pd.2)
    ∧ (∀ (g : FileD) (sym : GoStr), g.package ≠ [] →
        (g.package ++ ['.']).isPrefixOf sym = false →
        FindDescriptorByNameInFile g sym = none) := by
  constructor
  · rintro ⟨p, d⟩ hmem
    obtain ⟨hfind, hne, hval⟩ := findSymbolInFile_decls f hwf p d hmem
    have hsplit : (dottedName p).splitOn '.' = p := by
      apply List.splitOn_intercalate
      · intro l hl
        have hv := hval l hl
        rw [validName, decide_eq_true_eq] at hv
        exact hv
      · exact hne
    by_cases hpkg : f.package = []
    · rw [FindDescriptorByNameInFile, if_pos hpkg, fullNameIn, if_pos hpkg, hsplit]
      exact hfind
    · have hform : fullNameIn f.package p = (f.package ++ ['.']) ++ dottedName p := by
        rw [fullNameIn, if_neg hpkg, List.append_assoc, List.singleton_append]
      have htrim : trimPfx (fullNameIn f.package p) (f.package ++ ['.']) = dottedName p := by
        rw [hform, trimPfx, if_pos (isPrefixOf_self_append (f.package ++ ['.']) (dottedName p)),
          List.drop_left]
      have hneq : ¬ trimPfx (fullNameIn f.package p) (f.package ++ ['.'])
          = fullNameIn f.package p := by
        rw [htrim, hform]
        intro h
        have hl := congrArg List.length h
        rw [List.length_append, List.length_append] at hl
        simp at hl
      rw [FindDescriptorByNameInFile, if_neg hpkg, if_neg hneq, htrim, hsplit]
      exact hfind
  · intro g sym hgpkg hpref
    have htrim : trimPfx sym (g.package ++ ['.']) = sym := by
      rw [trimPfx, if_neg (by simp [hpref])]
    rw [FindDescriptorByNameInFile, if_neg hgpkg, if_pos htrim]

/-- The concrete file for the C2 witness: package `p`, message `p.M` with
nested message `p.M.N`. -/
def c2File : FileD :=
  ⟨['p'], [MessageD.mk ['M'] [] [] [MessageD.mk ['N'] [] [] [] [] []] [] []], [], [], []⟩

/-- Witness for C2: resolving `p.M.N` in `c2File` yields the nested message
descriptor, and resolving `q.M` (wrong package) yields `none`. -/
theorem findDescriptorByNameInFile_correct_witness :
    FindDescriptorByNameInFile c2File ['p', '.', 'M', '.', 'N']
        = some (.message (MessageD.mk ['N'] [] [] [] [] []))
    ∧ FindDescriptorByNameInFile c2File ['q', '.', 'M'] = none := by
  have h := findDescriptorByNameInFile_correct c2File (by rfl)
  constructor
  · exact h.1 ([['M'], ['N']], .message (MessageD.mk ['N'] [] [] [] [] []))
      (List.mem_cons_of_mem _ (List.mem_cons_self _ _))
  · exact h.2 c2File ['q', '.', 'M'] (by simp [c2File]) (by rfl)

/-- The concrete pool for the C8 evaluation: resolves the name `p.E` to an enum
descriptor. -/
def c8Pool : PoolModel :=
  ⟨fun n => if n = ['p', '.', 'E']
    then .ok (.enum ⟨['E'], []⟩, ['p', '.', 'E'])
    else .error .notFound⟩

/-- Claim C8 (evaluation at the failing input): `FindMessageByName` resolves
`p.E` to an enum descriptor and returns an unexpected-type error that carries
the expecting kind, the query name and the resolved descriptor — but its
`actual` field is `unknown`, not the kind of the descriptor that was found,
because the Go constructor `NewUnexpectedTypeError` never assigns the `Actual`
field of the struct literal it builds. -/
theorem findMessageByName_actual_kind_never_set :
    ∃ e : ErrUnexpectedType,
      c8Pool.FindMessageByName ['p', '.', 'E'] = .error (.unexpectedType e)
      ∧ e.expecting = .message
      ∧ e.name = ['p', '.', 'E']
      ∧ e.descriptor = some (.enum ⟨['E'], []⟩, ['p', '.', 'E'])
      ∧ e.actual = .unknown
      ∧ KindOf (.enum ⟨['E'], []⟩) = .enum
      ∧ e.actual ≠ KindOf (.enum ⟨['E'], []⟩) :=
  ⟨NewUnexpectedTypeError .message (.enum ⟨['E'], []⟩, ['p', '.', 'E']) [],
    rfl, rfl, rfl, rfl, rfl, rfl, by decide⟩

end ProtoVerify

namespace ProtoDyn

/-!
## Dynamic message wire codec (`dynamic/binary.go`)

Byte buffers are modelled as `List Nat` (each element below 256); a
`codec.Buffer` being read is the list of its remaining bytes. The helper
functions of the external `codec` package (not part of `dynamic/binary.go`)
are modelled from the spec's description of the standard wire format (§6).
-/

/-- The protobuf declared field types
(`descriptor.FieldDescriptorProto_TYPE_*`). -/
inductive FieldType where
  | double
  | float
  | int64
  | uint64
  | int32
  | fixed64
  | fixed32
  | bool
  | string
  | group
  | message
  | bytes
  | uint32
  | enum
  | sfixed32
  | sfixed64
  | sint32
  | sint64
deriving DecidableEq

/-- The errors of decoding/encoding, one constructor per distinct error value
of the source (`io.ErrUnexpectedEOF`, the codec's varint/tag errors,
`proto.ErrInternalBadWireType`, `dynamic.NumericOverflowError`, the three
`fmt.Errorf` messages of `dynamic/binary.go`, the marshalling panic for a
missing field descriptor, a codec encoding-mismatch error, and the
post-decode validation error). -/
inductive DErr where
  | unexpectedEOF
  | varintOverflow
  | tagOutOfRange
  | badWireType
  | numericOverflow
  | requiresLenDelim
  | cannotParseLenDelim
  | groupNotMessage
  | missingFieldDescriptor
  | encodeBadValue
  | validationRequired
deriving DecidableEq

/-- Wire type codes (proto.WireVarint etc.). -/
def wireVarint : Nat := 0
def wireFixed64 : Nat := 1
def wireBytes : Nat := 2
def wireStartGroup : Nat := 3
def wireEndGroup : Nat := 4
def wireFixed32 : Nat := 5

/-- Modelled from the spec: the standard base-128 varint decoder of the binary
wire format — little-endian 7-bit groups with a continuation bit; fails on
truncated input, on a value of more than ten bytes, and on overflow past 64
bits (the `codec.Buffer.DecodeVarint` helper is outside `dynamic/binary.go`). -/
def decodeVarintAux : List Nat → Nat → Nat → Except DErr (Nat × List Nat)
  | [], _, _ => .error .unexpectedEOF
  | b :: rest, shift, acc =>
    if shift ≥ 70 then .error .varintOverflow
    else if b < 128 then
      if acc + b * 2 ^ shift < 2 ^ 64 then .ok (acc + b * 2 ^ shift, rest)
      else .error .varintOverflow
    else decodeVarintAux rest (shift + 7) (acc + (b - 128) * 2 ^ shift)

def decodeVarint (bs : List Nat) : Except DErr (Nat × List Nat) :=
  decodeVarintAux bs 0 0

/-- Modelled from the spec: the canonical (minimal) varint encoding. -/
def encodeVarint (v : Nat) : List Nat :=
  if v < 128 then [v] else (v % 128 + 128) :: encodeVarint (v / 128)
termination_by v
decreasing_by exact Nat.div_lt_self (by omega) (by omega)

/-- Modelled from the spec: little-endian fixed 4-byte decoding. -/
def decodeFixed32 : List Nat → Except DErr (Nat × List Nat)
  | b0 :: b1 :: b2 :: b3 :: rest =>
    .ok (b0 + b1 * 256 + b2 * 256 ^ 2 + b3 * 256 ^ 3, rest)
  | _ => .error .unexpectedEOF

/-- Modelled from the spec: little-endian fixed 8-byte decoding. -/
def decodeFixed64 : List Nat → Except DErr (Nat × List Nat)
  | b0 :: b1 :: b2 :: b3 :: b4 :: b5 :: b6 :: b7 :: rest =>
    .ok (b0 + b1 * 256 + b2 * 256 ^ 2 + b3 * 256 ^ 3 + b4 * 256 ^ 4
      + b5 * 256 ^ 5 + b6 * 256 ^ 6 + b7 * 256 ^ 7, rest)
  | _ => .error .unexpectedEOF

/-- Modelled from the spec: little-endian fixed 4-byte encoding. -/
def encodeFixed32 (v : Nat) : List Nat :=
  [v % 256, v / 256 % 256, v / 256 ^ 2 % 256, v / 256 ^ 3 % 256]

/-- Modelled from the spec: little-endian fixed 8-byte encoding. -/
def encodeFixed64 (v : Nat) : List Nat :=
  [v % 256, v / 256 % 256, v / 256 ^ 2 % 256, v / 256 ^ 3 % 256,
   v / 256 ^ 4 % 256, v / 256 ^ 5 % 256, v / 256 ^ 6 % 256, v / 256 ^ 7 % 256]

/-- Modelled from the spec: a field header is one varint whose low three bits
are the wire type and whose remaining bits are the tag number, which must fit
in an `int32` (`codec.Buffer.DecodeTagAndWireType`). Returns
(tag, wireType, rest). -/
def decodeTagAndWireType (bs : List Nat) : Except DErr (Nat × Nat × List Nat) :=
  match decodeVarint bs with
  | .error e => .error e
  | .ok (v, rest) =>
    if v / 8 > 2 ^ 31 - 1 then .error .tagOutOfRange
    else .ok (v / 8, v % 8, rest)

/-- Modelled from the spec: header encoding (`EncodeTagAndWireType`). -/
def encodeTagAndWireType (tag wt : Nat) : List Nat :=
  encodeVarint (tag * 8 + wt)

/-- Modelled from the spec: a length-delimited payload — a varint length
followed by that many bytes (`codec.Buffer.DecodeRawBytes`); the `alloc`
parameter only controls defensive copying in Go and has no observable effect
on the immutable lists of the model. -/
def decodeRawBytes (_alloc : Bool) (bs : List Nat) : Except DErr (List Nat × List Nat) :=
  match decodeVarint bs with
  | .error e => .error e
  | .ok (n, rest) =>
    if n ≤ rest.length then .ok (rest.take n, rest.drop n) else .error .unexpectedEOF

/-- Modelled from the spec: length-prefixed raw bytes (`EncodeRawBytes`). -/
def encodeRawBytes (bs : List Nat) : List Nat :=
  encodeVarint bs.length ++ bs

/-! ### Progress: every successful decode consumes at least the bytes it
returns fewer of -/

theorem decodeVarintAux_progress :
    ∀ (bs : List Nat) (shift acc v : Nat) (rest : List Nat),
      decodeVarintAux bs shift acc = .ok (v, rest) → rest.length < bs.length := by
  intro bs
  induction bs with
  | nil => intro shift acc v rest h; exact absurd h (by simp [decodeVarintAux])
  | cons b bs' ih =>
    intro shift acc v rest h
    rw [decodeVarintAux] at h
    split at h
    · exact absurd h (by simp)
    · split at h
      · split at h
        · simp only [Except.ok.injEq, Prod.mk.injEq] at h
          simp [← h.2]
        · exact absurd h (by simp)
      · have := ih _ _ _ _ h
        simp only [List.length_cons]
        omega

theorem decodeVarint_progress {bs : List Nat} {v : Nat} {rest : List Nat}
    (h : decodeVarint bs = .ok (v, rest)) : rest.length < bs.length :=
  decodeVarintAux_progress bs 0 0 v rest h

theorem decodeFixed32_progress {bs : List Nat} {v : Nat} {rest : List Nat}
    (h : decodeFixed32 bs = .ok (v, rest)) : rest.length + 4 = bs.length := by
  match bs, h with
  | b0 :: b1 :: b2 :: b3 :: r, h =>
    simp only [decodeFixed32, Except.ok.injEq, Prod.mk.injEq] at h
    simp [← h.2]

theorem decodeFixed64_progress {bs : List Nat} {v : Nat} {rest : List Nat}
    (h : decodeFixed64 bs = .ok (v, rest)) : rest.length + 8 = bs.length := by
  match bs, h with
  | b0 :: b1 :: b2 :: b3 :: b4 :: b5 :: b6 :: b7 :: r, h =>
    simp only [decodeFixed64, Except.ok.injEq, Prod.mk.injEq] at h
    simp [← h.2]

theorem decodeTagAndWireType_progress {bs : List Nat} {tag wt : Nat} {rest : List Nat}
    (h : decodeTagAndWireType bs = .ok (tag, wt, rest)) : rest.length < bs.length := by
  rw [decodeTagAndWireType] at h
  split at h
  · exact absurd h (by simp)
  · rename_i v r heq
    split at h
    · exact absurd h (by simp)
    · simp only [Except.ok.injEq, Prod.mk.injEq] at h
      exact h.2.2 ▸ decodeVarint_progress heq

theorem decodeRawBytes_progress {alloc : Bool} {bs : List Nat} {raw rest : List Nat}
    (h : decodeRawBytes alloc bs = .ok (raw, rest)) :
    raw.length + rest.length < bs.length := by
  rw [decodeRawBytes] at h
  split at h
  · exact absurd h (by simp)
  · rename_i n r heq
    split at h
    · simp only [Except.ok.injEq, Prod.mk.injEq] at h
      have hr := decodeVarint_progress heq
      have hlen : (r.take n).length + (r.drop n).length = r.length := by
        rw [List.length_take, List.length_drop]
        omega
      rw [← h.1, ← h.2]
      omega
    · exact absurd h (by simp)

/-! ### Decoding a canonical encoding returns the encoded value and consumes
exactly its bytes -/

theorem decodeVarintAux_encode (v : Nat) :
    ∀ (acc shift : Nat) (r : List Nat), acc + v * 2 ^ shift < 2 ^ 64 → shift < 64 →
      decodeVarintAux (encodeVarint v ++ r) shift acc = .ok (acc + v * 2 ^ shift, r) := by
  induction v using Nat.strong_induction_on with
  | _ v ih =>
    intro acc shift r hbound hshift
    rw [encodeVarint]
    by_cases hv : v < 128
    · rw [if_pos hv]
      simp only [List.cons_append, List.nil_append, decodeVarintAux]
      rw [if_neg (by omega), if_pos hv, if_pos hbound]
      rfl
    · rw [if_neg hv]
      simp only [List.cons_append, decodeVarintAux]
      rw [if_neg (by omega : ¬ shift ≥ 70), if_neg (by omega : ¬ v % 128 + 128 < 128)]
      have hmd : v % 128 + 128 * (v / 128) = v := Nat.mod_add_div v 128
      have hexp : (v % 128) * 2 ^ shift + v / 128 * 2 ^ (shift + 7) = v * 2 ^ shift := by
        rw [pow_add]
        calc (v % 128) * 2 ^ shift + v / 128 * (2 ^ shift * 2 ^ 7)
            = (v % 128 + 128 * (v / 128)) * 2 ^ shift := by ring
          _ = v * 2 ^ shift := by rw [hmd]
      have hs7 : shift + 7 < 64 := by
        have h1 : 2 ^ (shift + 7) ≤ v * 2 ^ shift := by
          rw [pow_add]
          calc 2 ^ shift * 2 ^ 7 = 128 * 2 ^ shift := by ring
            _ ≤ v * 2 ^ shift := Nat.mul_le_mul_right _ (by omega)
        have h2 : 2 ^ (shift + 7) < 2 ^ 64 := lt_of_le_of_lt h1 (by omega)
        exact (Nat.pow_lt_pow_iff_right (by omega : 1 < 2)).mp h2
      have hsub : v % 128 + 128 - 128 = v % 128 := by omega
      rw [hsub]
      have hrec := ih (v / 128) (Nat.div_lt_self (by omega) (by omega))
        (acc + (v % 128) * 2 ^ shift) (shift + 7) r (by omega) hs7
      have hgoal : acc + v % 128 * 2 ^ shift + v / 128 * 2 ^ (shift + 7)
          = acc + v * 2 ^ shift := by omega
      exact hrec.trans (congrArg (fun t => Except.ok (t, r)) hgoal)

theorem decodeVarint_encode (v : Nat) (r : List Nat) (hv : v < 2 ^ 64) :
    decodeVarint (encodeVarint v ++ r) = .ok (v, r) := by
  have h := decodeVarintAux_encode v 0 0 r (by simpa using hv) (by omega)
  simpa [decodeVarint] using h

theorem decodeFixed32_encode (v : Nat) (r : List Nat) (hv : v < 2 ^ 32) :
    decodeFixed32 (encodeFixed32 v ++ r) = .ok (v, r) := by
  simp only [encodeFixed32, List.cons_append, List.nil_append, decodeFixed32]
  have h : v % 256 + v / 256 % 256 * 256 + v / 256 ^ 2 % 256 * 256 ^ 2
      + v / 256 ^ 3 % 256 * 256 ^ 3 = v := by
    have h32 : v < 4294967296 := hv
    omega
  rw [h]

theorem decodeFixed64_encode (v : Nat) (r : List Nat) (hv : v < 2 ^ 64) :
    decodeFixed64 (encodeFixed64 v ++ r) = .ok (v, r) := by
  simp only [encodeFixed64, List.cons_append, List.nil_append, decodeFixed64]
  have h : v % 256 + v / 256 % 256 * 256 + v / 256 ^ 2 % 256 * 256 ^ 2
      + v / 256 ^ 3 % 256 * 256 ^ 3 + v / 256 ^ 4 % 256 * 256 ^ 4
      + v / 256 ^ 5 % 256 * 256 ^ 5 + v / 256 ^ 6 % 256 * 256 ^ 6
      + v / 256 ^ 7 % 256 * 256 ^ 7 = v := by
    have h64 : v < 18446744073709551616 := hv
    omega
  rw [h]

theorem decodeTagAndWireType_encode (tag wt : Nat) (r : List Nat)
    (htag : tag ≤ 2 ^ 31 - 1) (hwt : wt < 8) :
    decodeTagAndWireType (encodeTagAndWireType tag wt ++ r) = .ok (tag, wt, r) := by
  rw [encodeTagAndWireType, decodeTagAndWireType, decodeVarint_encode _ _ (by omega)]
  have h1 : (tag * 8 + wt) / 8 = tag := by omega
  have h2 : (tag * 8 + wt) % 8 = wt := by omega
  show (if (tag * 8 + wt) / 8 > 2 ^ 31 - 1
      then (Except.error DErr.tagOutOfRange : Except DErr (Nat × Nat × List Nat))
      else Except.ok ((tag * 8 + wt) / 8, (tag * 8 + wt) % 8, r)) = Except.ok (tag, wt, r)
  rw [if_neg (by omega), h1, h2]

theorem decodeRawBytes_encode (a : Bool) (p r : List Nat) (hp : p.length < 2 ^ 64) :
    decodeRawBytes a (encodeVarint p.length ++ (p ++ r)) = .ok (p, r) := by
  rw [decodeRawBytes, decodeVarint_encode _ _ hp]
  show (if p.length ≤ (p ++ r).length
      then Except.ok ((p ++ r).take p.length, (p ++ r).drop p.length)
      else (Except.error DErr.unexpectedEOF : Except DErr (List Nat × List Nat)))
      = Except.ok (p, r)
  rw [if_pos (by rw [List.length_append]; omega), List.take_left, List.drop_left]

/-! ### Reading past a group (`codec.Buffer.ReadGroup`) -/

/-- The span of `b` consumed by a decode step that returned remainder `rest`. -/
def consumedBy (b rest : List Nat) : List Nat := b.take (b.length - rest.length)

theorem consumedBy_append (c rest : List Nat) : consumedBy (c ++ rest) rest = c := by
  rw [consumedBy, List.length_append]
  have h : c.length + rest.length - rest.length = c.length := by omega
  rw [h, List.take_left]

/-- Modelled from the spec: skip one non-group payload of the given wire type
while scanning for a matching group-end marker. -/
def skipScalarPayload (wt : Nat) (bs : List Nat) : Except DErr (List Nat) :=
  if wt = wireVarint then (decodeVarint bs).map (fun p => p.2)
  else if wt = wireFixed32 then (decodeFixed32 bs).map (fun p => p.2)
  else if wt = wireFixed64 then (decodeFixed64 bs).map (fun p => p.2)
  else if wt = wireBytes then (decodeRawBytes false bs).map (fun p => p.2)
  else .error .badWireType

theorem skipScalarPayload_progress {wt : Nat} {bs rest : List Nat}
    (h : skipScalarPayload wt bs = .ok rest) : rest.length ≤ bs.length := by
  rw [skipScalarPayload] at h
  split at h
  · match heq : decodeVarint bs with
    | .error e => rw [heq] at h; exact absurd h (by simp [Except.map])
    | .ok (v, r) =>
      rw [heq] at h
      have hre : rest = r := by simpa [Except.map] using h.symm
      exact hre ▸ Nat.le_of_lt (decodeVarint_progress heq)
  · split at h
    · match heq : decodeFixed32 bs with
      | .error e => rw [heq] at h; exact absurd h (by simp [Except.map])
      | .ok (v, r) =>
        rw [heq] at h
        have hre : rest = r := by simpa [Except.map] using h.symm
        have hp := decodeFixed32_progress heq
        rw [hre]
        omega
    · split at h
      · match heq : decodeFixed64 bs with
        | .error e => rw [heq] at h; exact absurd h (by simp [Except.map])
        | .ok (v, r) =>
          rw [heq] at h
          have hre : rest = r := by simpa [Except.map] using h.symm
          have hp := decodeFixed64_progress heq
          rw [hre]
          omega
      · split at h
        · match heq : decodeRawBytes false bs with
          | .error e => rw [heq] at h; exact absurd h (by simp [Except.map])
          | .ok (raw, r) =>
            rw [heq] at h
            have hre : rest = r := by simpa [Except.map] using h.symm
            have hp := decodeRawBytes_progress heq
            rw [hre]
            omega
        · exact absurd h (by simp)

/-- Modelled from the spec: `codec.Buffer.ReadGroup` — scan forward keeping a
group-nesting depth, collecting the raw bytes up to (and excluding) the
matching group-end header and returning them with the remainder after that
header. -/
def readGroupLoop (bs : List Nat) (depth : Nat) : Except DErr (List Nat × List Nat) :=
  match h1 : decodeTagAndWireType bs with
  | .error e => .error e
  | .ok (_, wt, rest1) =>
    if wt = wireEndGroup then
      if depth = 0 then .ok ([], rest1)
      else
        match readGroupLoop rest1 (depth - 1) with
        | .error e => .error e
        | .ok (c, r) => .ok (consumedBy bs rest1 ++ c, r)
    else if wt = wireStartGroup then
      match readGroupLoop rest1 (depth + 1) with
      | .error e => .error e
      | .ok (c, r) => .ok (consumedBy bs rest1 ++ c, r)
    else
      match h2 : skipScalarPayload wt rest1 with
      | .error e => .error e
      | .ok rest2 =>
        match readGroupLoop rest2 depth with
        | .error e => .error e
        | .ok (c, r) => .ok (consumedBy bs rest2 ++ c, r)
termination_by bs.length
decreasing_by
  · exact decodeTagAndWireType_progress h1
  · exact decodeTagAndWireType_progress h1
  · have ha := decodeTagAndWireType_progress h1
    have hb := skipScalarPayload_progress h2
    omega

/-- Modelled from the spec: `ReadGroup` starts at nesting depth zero; `alloc`
only controls defensive copying in Go. -/
def readGroup (_alloc : Bool) (bs : List Nat) : Except DErr (List Nat × List Nat) :=
  readGroupLoop bs 0

theorem readGroupLoop_progress (n : Nat) :
    ∀ (bs : List Nat), bs.length ≤ n → ∀ (depth : Nat) (c r : List Nat),
      readGroupLoop bs depth = .ok (c, r) → r.length < bs.length := by
  induction n with
  | zero =>
    intro bs hb depth c r h
    have hbs : bs = [] := List.length_eq_zero.mp (by omega)
    subst hbs
    rw [readGroupLoop] at h
    exact absurd h (by simp [decodeTagAndWireType, decodeVarint, decodeVarintAux])
  | succ n ih =>
    intro bs hb depth c r h
    rw [readGroupLoop] at h
    split at h
    · exact absurd h (by simp)
    · rename_i v wt rest1 h1
      have hr1 := decodeTagAndWireType_progress h1
      split at h
      · split at h
        · simp only [Except.ok.injEq, Prod.mk.injEq] at h
          rw [← h.2]
          omega
        · split at h
          · exact absurd h (by simp)
          · rename_i c' r' hrec
            simp only [Except.ok.injEq, Prod.mk.injEq] at h
            have hq := ih rest1 (by omega) _ _ _ hrec
            rw [← h.2]
            omega
      · split at h
        · split at h
          · exact absurd h (by simp)
          · rename_i c' r' hrec
            simp only [Except.ok.injEq, Prod.mk.injEq] at h
            have hq := ih rest1 (by omega) _ _ _ hrec
            rw [← h.2]
            omega
        · split at h
          · exact absurd h (by simp)
          · rename_i rest2 h2
            have hr2 := skipScalarPayload_progress h2
            split at h
            · exact absurd h (by simp)
            · rename_i c' r' hrec
              simp only [Except.ok.injEq, Prod.mk.injEq] at h
              have hq := ih rest2 (by omega) _ _ _ hrec
              rw [← h.2]
              omega

theorem readGroup_progress {a : Bool} {bs c r : List Nat}
    (h : readGroup a bs = .ok (c, r)) : r.length < bs.length :=
  readGroupLoop_progress bs.length bs (Nat.le_refl _) 0 c r h

/-! ### The dynamic message store -/

/-- One preserved occurrence of an unknown tag (`dynamic.UnknownField`,
modelled from the spec's Unknown Field Entry): the wire-type code under which
it was seen, the raw numeric value (varint/fixed payloads) and the raw byte
payload (length-delimited and group payloads); the unset half stays at its Go
zero value. -/
structure UnknownField where
  encoding : Nat
  value : Nat
  contents : List Nat
deriving DecidableEq

mutual

/-- A dynamic message descriptor, reduced to the part the wire codec consults:
the declared fields (including extensions known to the message), looked up by
tag number. -/
inductive DynDescriptor where
  | mk (fields : List DynField)

/-- A field descriptor as consulted by the codec: tag number, declared type,
repeatedness, packedness declaration, the proto2 required flag, and the nested
message descriptor for message/group-typed fields (`GetMessageType`). -/
inductive DynField where
  | mk (number : Nat) (typ : FieldType) (repeated packed required : Bool)
       (msgType : Option DynDescriptor)

end

def DynDescriptor.fields : DynDescriptor → List DynField
  | .mk fs => fs

def DynField.number : DynField → Nat
  | .mk n _ _ _ _ _ => n

def DynField.typ : DynField → FieldType
  | .mk _ t _ _ _ _ => t

def DynField.repeated : DynField → Bool
  | .mk _ _ r _ _ _ => r

def DynField.packed : DynField → Bool
  | .mk _ _ _ p _ _ => p

def DynField.required : DynField → Bool
  | .mk _ _ _ _ r _ => r

def DynField.msgType : DynField → Option DynDescriptor
  | .mk _ _ _ _ _ m => m

mutual

/-- A decoded Go-level field value. Strings are byte strings (as Go strings
are); float/double values are represented by their bits
(`math.Float32frombits`/`Float64frombits` are bijections on bits). -/
inductive Value where
  | vbool (b : Bool)
  | vu32 (v : Nat)
  | vi32 (v : Int)
  | vu64 (v : Nat)
  | vi64 (v : Int)
  | vf32 (bits : Nat)
  | vf64 (bits : Nat)
  | vbytes (bs : List Nat)
  | vstr (bs : List Nat)
  | vmsg (m : DynMessage)
  | vlist (vs : List Value)

/-- The dynamic message store: its descriptor, the known-field map (tag number
→ decoded value, an association list with unique keys standing for the Go
map), and the unknown-field map (tag number → ordered occurrence list). -/
inductive DynMessage where
  | mk (descr : DynDescriptor) (values : List (Nat × Value))
       (unknownFields : List (Nat × List UnknownField))

end

def DynMessage.descr : DynMessage → DynDescriptor
  | .mk d _ _ => d

def DynMessage.values : DynMessage → List (Nat × Value)
  | .mk _ v _ => v

def DynMessage.unknownFields : DynMessage → List (Nat × List UnknownField)
  | .mk _ _ u => u

/-- The message factory producing a fresh dynamic message for a descriptor
(`mf.NewMessage`); modelled from the spec: the factory collaborator always
produces a dynamic message store here, the dynamic-path case of the source. -/
def freshMessage (d : DynDescriptor) : DynMessage := .mk d [] []

/-- Modelled from the spec: the known-field lookup — a tag matches a field
declared (directly or via extension) on the message's descriptor
(`Message.FindFieldDescriptor`, defined outside `dynamic/binary.go`). -/
def DynMessage.findFieldDescriptor (m : DynMessage) (tag : Nat) : Option DynField :=
  m.descr.fields.find? (fun f => f.number == tag)

/-! ### Numeric decoding of varint/fixed payloads -/

/-- Modelled from the spec: the wire-type classification of declared field
types (the `varintTypes` set of the `dynamic` package): bool, the 32/64-bit
int types, the zigzag types and enums travel as varints. -/
def varintTypes : FieldType → Bool
  | .bool | .int32 | .int64 | .uint32 | .uint64 | .sint32 | .sint64 | .enum => true
  | _ => false

/-- Modelled from the spec: the `fixed32Types` set: fixed32, sfixed32, float. -/
def fixed32Types : FieldType → Bool
  | .fixed32 | .sfixed32 | .float => true
  | _ => false

/-- Modelled from the spec: the `fixed64Types` set: fixed64, sfixed64, double. -/
def fixed64Types : FieldType → Bool
  | .fixed64 | .sfixed64 | .double => true
  | _ => false

/-- Modelled from the spec: zigzag decoding (`codec.DecodeZigZag64`, and
`DecodeZigZag32` on values already checked to fit 32 bits): even values map to
`v/2`, odd values to `-(v+1)/2`. -/
def decodeZigZag (v : Nat) : Int :=
  if v % 2 = 0 then ((v / 2 : Nat) : Int) else -(((v : Int) + 1) / 2)

/-- The two's-complement reinterpretation of a 64-bit unsigned value
(Go `int64(v)`). -/
def toInt64 (v : Nat) : Int :=
  if v < 2 ^ 63 then (v : Int) else (v : Int) - 2 ^ 64

/-- The two's-complement reinterpretation of a 32-bit unsigned value
(Go `int32(v)` for `v ≤ MaxUint32`). -/
def toInt32 (v : Nat) : Int :=
  if v < 2 ^ 31 then (v : Int) else (v : Int) - 2 ^ 32

/-- `unmarshalSimpleField`: interpret a 64-bit numeric wire value under the
field's declared type — range checks raising the numeric-overflow error for
32-bit targets, zigzag decoding for the signed-zigzag types, value-as-is (or
two's-complement reinterpretation) for 64-bit types, bit-reinterpretation for
the floating-point types, and a wire-format error for the length-delimited
types. -/
def unmarshalSimpleField (fd : DynField) (v : Nat) : Except DErr Value :=
  match fd.typ with
  | .bool => .ok (.vbool (v != 0))
  | .uint32 | .fixed32 =>
    if v > 2 ^ 32 - 1 then .error .numericOverflow else .ok (.vu32 v)
  | .int32 | .enum =>
    if toInt64 v > 2 ^ 31 - 1 ∨ toInt64 v < -(2 ^ 31) then .error .numericOverflow
    else .ok (.vi32 (toInt64 v))
  | .sfixed32 =>
    if v > 2 ^ 32 - 1 then .error .numericOverflow else .ok (.vi32 (toInt32 v))
  | .sint32 =>
    if v > 2 ^ 32 - 1 then .error .numericOverflow else .ok (.vi32 (decodeZigZag v))
  | .uint64 | .fixed64 => .ok (.vu64 v)
  | .int64 | .sfixed64 => .ok (.vi64 (toInt64 v))
  | .sint64 => .ok (.vi64 (decodeZigZag v))
  | .float =>
    if v > 2 ^ 32 - 1 then .error .numericOverflow else .ok (.vf32 v)
  | .double => .ok (.vf64 v)
  | .bytes | .string | .message | .group => .error .requiresLenDelim

/-! ### The packed-run fallback loop of `unmarshalLengthDelimitedField` -/

/-- One element read of the packed-run loop: per the declared type's wire
class, a varint, a fixed32 or a fixed64. -/
def packedElemRead (t : FieldType) (bs : List Nat) : Except DErr (Nat × List Nat) :=
  if varintTypes t then decodeVarint bs
  else if fixed32Types t then decodeFixed32 bs
  else if fixed64Types t then decodeFixed64 bs
  else .error .cannotParseLenDelim

theorem packedElemRead_progress {t : FieldType} {bs : List Nat} {v : Nat} {rest : List Nat}
    (h : packedElemRead t bs = .ok (v, rest)) : rest.length < bs.length := by
  rw [packedElemRead] at h
  split at h
  · exact decodeVarint_progress h
  · split at h
    · have := decodeFixed32_progress h
      omega
    · split at h
      · have := decodeFixed64_progress h
        omega
      · exact absurd h (by simp)

/-- The `for !packedBuf.EOF()` loop of the default (packed-run) branch of
`unmarshalLengthDelimitedField`: decode back-to-back values, keeping the last
in `val` and appending each to `slice` when the field is repeated. -/
def packedLoop (fd : DynField) (bs : List Nat) (val : Option Value) (slice : List Value) :
    Except DErr (Option Value × List Value) :=
  if hbs : bs = [] then .ok (val, slice)
  else
    match h : packedElemRead fd.typ bs with
    | .error e => .error e
    | .ok (v, rest) =>
      match unmarshalSimpleField fd v with
      | .error e => .error e
      | .ok w =>
        packedLoop fd rest (some w) (if fd.repeated then slice ++ [w] else slice)
termination_by bs.length
decreasing_by exact packedElemRead_progress h

/-! ### Merging decoded values and capturing unknown fields -/

/-- Update one key of the known-field association list (Go map write). -/
def setValue : List (Nat × Value) → Nat → Value → List (Nat × Value)
  | [], tag, v => [(tag, v)]
  | (k, w) :: rest, tag, v =>
    if k = tag then (k, v) :: rest else (k, w) :: setValue rest tag v

/-- Read one key of the known-field association list (Go map read). -/
def lookupValue (l : List (Nat × Value)) (tag : Nat) : Option Value :=
  (l.find? (fun kv => kv.1 == tag)).map (fun kv => kv.2)

/-- Modelled from the spec: merging one decoded value into the store (decode
step 2 of §4.5): repeated fields append (a decoded packed run appends each of
its elements), non-repeated fields keep the last value; a `none` value (an
empty packed run decoded into a singular field) leaves the store unchanged.
Map-typed fields appear at wire level as repeated entry messages and merge as
repeated fields here (`mergeField` lives outside `dynamic/binary.go`). -/
def mergeField (m : DynMessage) (fd : DynField) (val : Option Value) : DynMessage :=
  match val with
  | none => m
  | some v =>
    if fd.repeated then
      let cur := match lookupValue m.values fd.number with
        | some (.vlist vs) => vs
        | _ => []
      let add := match v with
        | .vlist vs => vs
        | w => [w]
      .mk m.descr (setValue m.values fd.number (.vlist (cur ++ add))) m.unknownFields
    else .mk m.descr (setValue m.values fd.number v) m.unknownFields

theorem mergeField_unknownFields (m : DynMessage) (fd : DynField) (val : Option Value) :
    (mergeField m fd val).unknownFields = m.unknownFields
    ∧ (mergeField m fd val).descr = m.descr := by
  rw [mergeField.eq_def]
  match val with
  | none => exact ⟨rfl, rfl⟩
  | some v =>
    by_cases h : fd.repeated = true <;>
      simp [h, DynMessage.unknownFields, DynMessage.descr] <;>
      cases m <;> simp [DynMessage.unknownFields, DynMessage.descr]

/-- Append one occurrence to the unknown-field map at the given tag (Go map
append: `m.unknownFields[tagNumber] = append(m.unknownFields[tagNumber], u)`). -/
def appendUnknownField : List (Nat × List UnknownField) → Nat → UnknownField →
    List (Nat × List UnknownField)
  | [], tag, u => [(tag, [u])]
  | (k, us) :: rest, tag, u =>
    if k = tag then (k, us ++ [u]) :: rest else (k, us) :: appendUnknownField rest tag u

/-- Read one key of the unknown-field map (missing keys read as the empty
occurrence list, like a Go map). -/
def lookupUnknown (l : List (Nat × List UnknownField)) (tag : Nat) : List UnknownField :=
  ((l.find? (fun kv => kv.1 == tag)).map (fun kv => kv.2)).getD []

/-- `unmarshalUnknownField`: capture one occurrence of an undeclared tag —
fixed/varint payloads store the raw numeric value, length-delimited payloads
store the raw bytes, group payloads store the raw group contents read through
the matching end marker — and append it to the tag's occurrence list. -/
def unmarshalUnknownField (m : DynMessage) (tagNumber encoding : Nat) (b : List Nat) :
    Except DErr (DynMessage × List Nat) :=
  match (if encoding = wireFixed32 then
      (decodeFixed32 b).map (fun p => (UnknownField.mk encoding p.1 [], p.2))
    else if encoding = wireFixed64 then
      (decodeFixed64 b).map (fun p => (UnknownField.mk encoding p.1 [], p.2))
    else if encoding = wireVarint then
      (decodeVarint b).map (fun p => (UnknownField.mk encoding p.1 [], p.2))
    else if encoding = wireBytes then
      (decodeRawBytes true b).map (fun p => (UnknownField.mk encoding 0 p.1, p.2))
    else if encoding = wireStartGroup then
      (readGroup true b).map (fun p => (UnknownField.mk encoding 0 p.1, p.2))
    else .error .badWireType : Except DErr (UnknownField × List Nat)) with
  | .error e => .error e
  | .ok (u, rest) =>
    .ok (.mk m.descr m.values (appendUnknownField m.unknownFields tagNumber u), rest)

theorem unmarshalUnknownField_progress {m : DynMessage} {tagNumber encoding : Nat}
    {b : List Nat} {m' : DynMessage} {rest : List Nat}
    (h : unmarshalUnknownField m tagNumber encoding b = .ok (m', rest)) :
    rest.length ≤ b.length := by
  rw [unmarshalUnknownField] at h
  split at h
  · exact absurd h (by simp)
  · rename_i u r heq
    simp only [Except.ok.injEq, Prod.mk.injEq] at h
    rw [← h.2]
    clear h
    split at heq
    · match h2 : decodeFixed32 b with
      | .error e => rw [h2] at heq; exact absurd heq (by simp [Except.map])
      | .ok (v, r') =>
        rw [h2] at heq
        have hx : u = UnknownField.mk encoding v [] ∧ r = r' := by
          simpa [Except.map] using heq.symm
        rw [hx.2]
        have := decodeFixed32_progress h2
        omega
    · split at heq
      · match h2 : decodeFixed64 b with
        | .error e => rw [h2] at heq; exact absurd heq (by simp [Except.map])
        | .ok (v, r') =>
          rw [h2] at heq
          have hx : u = UnknownField.mk encoding v [] ∧ r = r' := by
            simpa [Except.map] using heq.symm
          rw [hx.2]
          have := decodeFixed64_progress h2
          omega
      · split at heq
        · match h2 : decodeVarint b with
          | .error e => rw [h2] at heq; exact absurd heq (by simp [Except.map])
          | .ok (v, r') =>
            rw [h2] at heq
            have hx : u = UnknownField.mk encoding v [] ∧ r = r' := by
              simpa [Except.map] using heq.symm
            rw [hx.2]
            have := decodeVarint_progress h2
            omega
        · split at heq
          · match h2 : decodeRawBytes true b with
            | .error e => rw [h2] at heq; exact absurd heq (by simp [Except.map])
            | .ok (raw, r') =>
              rw [h2] at heq
              have hx : u = UnknownField.mk encoding 0 raw ∧ r = r' := by
                simpa [Except.map] using heq.symm
              rw [hx.2]
              have := decodeRawBytes_progress h2
              omega
          · split at heq
            · match h2 : readGroup true b with
              | .error e => rw [h2] at heq; exact absurd heq (by simp [Except.map])
              | .ok (raw, r') =>
                rw [h2] at heq
                have hx : u = UnknownField.mk encoding 0 raw ∧ r = r' := by
                  simpa [Except.map] using heq.symm
                rw [hx.2]
                have := readGroup_progress h2
                omega
            · exact absurd heq (by simp)

/-! ### The decoder -/

/-- Modelled from the spec: `Reset` clears all known and unknown fields
(`Message.Reset`, defined outside `dynamic/binary.go`). -/
def DynMessage.reset (m : DynMessage) : DynMessage := .mk m.descr [] []

/-- Modelled from the spec: post-decode structural validation — every required
field of the descriptor must be present (`Message.Validate`, defined outside
`dynamic/binary.go`); failure is the validation error, distinct from all wire
errors. -/
def validateMessage (m : DynMessage) : Except DErr Unit :=
  if m.descr.fields.all (fun f => !f.required || (lookupValue m.values f.number).isSome)
  then .ok () else .error .validationRequired

mutual

/-- The `unmarshal(buf, isGroup)` loop of `dynamic/binary.go`: repeatedly read
a (tag, wire-type) header until the input is exhausted; a group-end marker
terminates the parse successfully when inside a group and is a wire-format
error (`proto.ErrInternalBadWireType`) otherwise; reaching end of input while
still inside a group is `io.ErrUnexpectedEOF`; every other field goes to the
known- or unknown-field path per the descriptor lookup. The returned remainder
(what is left after the group's end marker when `isGroup`) carries its length
bound for termination. -/
def unmarshal (m : DynMessage) (b : List Nat) (isGroup : Bool) :
    Except DErr (DynMessage × {r : List Nat // r.length ≤ b.length}) :=
  if hb : b = [] then
    if isGroup then .error .unexpectedEOF else .ok (m, ⟨b, Nat.le_refl _⟩)
  else
    match h1 : decodeTagAndWireType b with
    | .error e => .error e
    | .ok (tagNumber, wireType, rest1) =>
      if wireType = wireEndGroup then
        if isGroup then
          .ok (m, ⟨rest1, Nat.le_of_lt (decodeTagAndWireType_progress h1)⟩)
        else .error .badWireType
      else
        match m.findFieldDescriptor tagNumber with
        | none =>
          match h2 : unmarshalUnknownField m tagNumber wireType rest1 with
          | .error e => .error e
          | .ok (m2, rest2) =>
            (unmarshal m2 rest2 isGroup).map (fun q =>
              (q.1, ⟨q.2.1, by
                have ha := decodeTagAndWireType_progress h1
                have hb2 := unmarshalUnknownField_progress h2
                have hc := q.2.2
                omega⟩))
        | some fd =>
          match unmarshalKnownField m fd wireType rest1 with
          | .error e => .error e
          | .ok (m2, rest2) =>
            (unmarshal m2 rest2.1 isGroup).map (fun q =>
              (q.1, ⟨q.2.1, by
                have ha := decodeTagAndWireType_progress h1
                have hb2 := rest2.2
                have hc := q.2.2
                omega⟩))
termination_by (b.length, 1)
decreasing_by
  · apply Prod.Lex.left
    have ha := decodeTagAndWireType_progress h1
    have hb2 := unmarshalUnknownField_progress h2
    omega
  · apply Prod.Lex.left
    exact decodeTagAndWireType_progress h1
  · apply Prod.Lex.left
    have ha := decodeTagAndWireType_progress h1
    have hb2 := rest2.2
    omega

/-- `unmarshalKnownField`: decode one occurrence of a declared field per its
wire type — fixed32/fixed64/varint payloads interpreted by
`unmarshalSimpleField`; length-delimited payloads taken directly (defensively
copied) for bytes/string and dispatched to `unmarshalLengthDelimitedField`
otherwise; group payloads parsed recursively as a fresh nested dynamic message
until the matching end marker (the factory produces dynamic messages: the
`dm.unmarshal(b, true)` path of the source) — then merge the decoded value
into the store. -/
def unmarshalKnownField (m : DynMessage) (fd : DynField) (encoding : Nat) (b : List Nat) :
    Except DErr (DynMessage × {r : List Nat // r.length ≤ b.length}) :=
  if encoding = wireFixed32 then
    match h : decodeFixed32 b with
    | .error e => .error e
    | .ok (num, rest) =>
      match unmarshalSimpleField fd num with
      | .error e => .error e
      | .ok val =>
        .ok (mergeField m fd (some val),
          ⟨rest, by have := decodeFixed32_progress h; omega⟩)
  else if encoding = wireFixed64 then
    match h : decodeFixed64 b with
    | .error e => .error e
    | .ok (num, rest) =>
      match unmarshalSimpleField fd num with
      | .error e => .error e
      | .ok val =>
        .ok (mergeField m fd (some val),
          ⟨rest, by have := decodeFixed64_progress h; omega⟩)
  else if encoding = wireVarint then
    match h : decodeVarint b with
    | .error e => .error e
    | .ok (num, rest) =>
      match unmarshalSimpleField fd num with
      | .error e => .error e
      | .ok val =>
        .ok (mergeField m fd (some val),
          ⟨rest, Nat.le_of_lt (decodeVarint_progress h)⟩)
  else if encoding = wireBytes then
    if fd.typ = .bytes then
      match h : decodeRawBytes true b with
      | .error e => .error e
      | .ok (raw, rest) =>
        .ok (mergeField m fd (some (.vbytes raw)),
          ⟨rest, by have := decodeRawBytes_progress h; omega⟩)
    else if fd.typ = .string then
      match h : decodeRawBytes true b with
      | .error e => .error e
      | .ok (raw, rest) =>
        .ok (mergeField m fd (some (.vstr raw)),
          ⟨rest, by have := decodeRawBytes_progress h; omega⟩)
    else
      match h : decodeRawBytes false b with
      | .error e => .error e
      | .ok (raw, rest) =>
        match unmarshalLengthDelimitedField fd raw with
        | .error e => .error e
        | .ok val =>
          .ok (mergeField m fd val,
            ⟨rest, by have := decodeRawBytes_progress h; omega⟩)
  else if encoding = wireStartGroup then
    match fd.msgType with
    | none => .error .groupNotMessage
    | some dsc =>
      match unmarshal (freshMessage dsc) b true with
      | .error e => .error e
      | .ok (dm, rest) => .ok (mergeField m fd (some (.vmsg dm)), rest)
  else .error .badWireType
termination_by (b.length, 5)
decreasing_by
  · apply Prod.Lex.left
    have := decodeRawBytes_progress h
    omega
  · apply Prod.Lex.right
    omega

/-- `unmarshalLengthDelimitedField`: bytes and string take the payload
directly; message/group payloads decode a fresh nested dynamic message via
`proto.Unmarshal`, which for a dynamic message is its `Unmarshal` method
(reset, merge, validate); every other declared type is retried as a
packed-repeated run for backward compatibility, the decoded sequence
accumulating when the field is repeated and only the final value kept
otherwise. A `nil` nested message type (a descriptor-consistency violation)
is modelled as the group-parse error. -/
def unmarshalLengthDelimitedField (fd : DynField) (bytes : List Nat) :
    Except DErr (Option Value) :=
  if fd.typ = .bytes then .ok (some (.vbytes bytes))
  else if fd.typ = .string then .ok (some (.vstr bytes))
  else if fd.typ = .message ∨ fd.typ = .group then
    match fd.msgType with
    | none => .error .groupNotMessage
    | some dsc =>
      match Unmarshal (freshMessage dsc) bytes with
      | .error e => .error e
      | .ok msg => .ok (some (.vmsg msg))
  else
    match packedLoop fd bytes none [] with
    | .error e => .error e
    | .ok (val, slice) =>
      if fd.repeated then .ok (some (.vlist slice)) else .ok val
termination_by (bytes.length, 4)
decreasing_by
  · apply Prod.Lex.right
    omega

/-- `Unmarshal`: reset the message, merge the bytes, then run post-decode
validation. -/
def Unmarshal (m : DynMessage) (b : List Nat) : Except DErr DynMessage :=
  match UnmarshalMerge m.reset b with
  | .error e => .error e
  | .ok m1 =>
    match validateMessage m1 with
    | .error e => .error e
    | .ok _ => .ok m1
termination_by (b.length, 3)
decreasing_by
  · apply Prod.Lex.right
    omega

/-- `UnmarshalMerge`: merge the bytes into the existing state, with no reset
and no validation of the result. -/
def UnmarshalMerge (m : DynMessage) (b : List Nat) : Except DErr DynMessage :=
  match unmarshal m b false with
  | .error e => .error e
  | .ok (m1, _) => .ok m1
termination_by (b.length, 2)
decreasing_by
  · apply Prod.Lex.right
    omega

end

/-! ### The encoder -/

/-- Modelled from the spec: the tag enumeration the marshaller iterates
(`knownFieldTags`/`unknownFieldTags`, defined outside `dynamic/binary.go`):
a fixed ascending order over the map keys — one of the orders the spec
permits, and the one the implementation uses. -/
def insertSorted (n : Nat) : List Nat → List Nat
  | [] => [n]
  | x :: rest => if n ≤ x then n :: x :: rest else x :: insertSorted n rest

def sortTags : List Nat → List Nat
  | [] => []
  | x :: rest => insertSorted x (sortTags rest)

def DynMessage.knownFieldTags (m : DynMessage) : List Nat :=
  sortTags (m.values.map (fun kv => kv.1))

def DynMessage.unknownFieldTags (m : DynMessage) : List Nat :=
  sortTags (m.unknownFields.map (fun kv => kv.1))

/-- The zigzag encoding (`codec.EncodeZigZag32`/`64`), modelled from the
spec. -/
def encodeZigZag (i : Int) : Nat :=
  if i ≥ 0 then 2 * i.toNat else 2 * (-i).toNat - 1

/-- Go `uint64(i)` for a signed value: two's-complement modulo `2^64`. -/
def toUInt64Repr (i : Int) : Nat := (i.emod (2 ^ 64)).toNat

/-- Go `uint32(i)` for a signed value: two's-complement modulo `2^32`. -/
def toUInt32Repr (i : Int) : Nat := (i.emod (2 ^ 32)).toNat

/-- Modelled from the spec: the wire type a declared field type uses for a
single (non-packed) value. -/
def wireTypeOf (t : FieldType) : Nat :=
  if varintTypes t then wireVarint
  else if fixed32Types t then wireFixed32
  else if fixed64Types t then wireFixed64
  else if t = .group then wireStartGroup
  else wireBytes

/-- Modelled from the spec: the headerless scalar payload of one value under
the field's declared type (the per-element encoding inside a packed run);
only scalar types are packable. -/
def encodeScalarPayload (t : FieldType) (v : Value) : Except DErr (List Nat) :=
  match t, v with
  | .bool, .vbool b => .ok (encodeVarint (if b then 1 else 0))
  | .uint32, .vu32 n => .ok (encodeVarint n)
  | .uint64, .vu64 n => .ok (encodeVarint n)
  | .int32, .vi32 i => .ok (encodeVarint (toUInt64Repr i))
  | .enum, .vi32 i => .ok (encodeVarint (toUInt64Repr i))
  | .int64, .vi64 i => .ok (encodeVarint (toUInt64Repr i))
  | .sint32, .vi32 i => .ok (encodeVarint (encodeZigZag i))
  | .sint64, .vi64 i => .ok (encodeVarint (encodeZigZag i))
  | .fixed32, .vu32 n => .ok (encodeFixed32 n)
  | .sfixed32, .vi32 i => .ok (encodeFixed32 (toUInt32Repr i))
  | .float, .vf32 bits => .ok (encodeFixed32 bits)
  | .fixed64, .vu64 n => .ok (encodeFixed64 n)
  | .sfixed64, .vi64 i => .ok (encodeFixed64 (toUInt64Repr i))
  | .double, .vf64 bits => .ok (encodeFixed64 bits)
  | _, _ => .error .encodeBadValue

/-- The packed-run payload: the concatenated scalar payloads of the elements. -/
def packedPayload (t : FieldType) : List Value → Except DErr (List Nat)
  | [] => .ok []
  | v :: rest =>
    match encodeScalarPayload t v with
    | .error e => .error e
    | .ok b =>
      match packedPayload t rest with
      | .error e => .error e
      | .ok bs => .ok (b ++ bs)

theorem lookupValue_sizeOf {l : List (Nat × Value)} {t : Nat} {v : Value}
    (h : lookupValue l t = some v) : sizeOf v < sizeOf l := by
  rw [lookupValue] at h
  match heq : l.find? (fun kv => kv.1 == t) with
  | none => rw [heq] at h; exact absurd h (by simp)
  | some kv =>
    rw [heq] at h
    have hv : kv.2 = v := by simpa using h
    have hmem := List.find?_mem heq
    have hsz := List.sizeOf_lt_of_mem hmem
    have hle : sizeOf v ≤ sizeOf kv := by
      rw [← hv]
      cases kv with
      | mk k w =>
        simp only [Prod.mk.sizeOf_spec]
        omega
    omega

/-- The bytes `marshalUnknownFields` emits for one unknown-field occurrence:
the tag/wire-type header, then the payload re-encoded from the stored entry —
length-delimited contents re-length-prefixed, group contents emitted verbatim
followed by a matching end marker, fixed/varint values re-encoded from the
stored integer. -/
def encodeUnknownField (tag : Nat) (u : UnknownField) : Except DErr (List Nat) :=
  if u.encoding = wireBytes then
    .ok (encodeTagAndWireType tag u.encoding ++ encodeRawBytes u.contents)
  else if u.encoding = wireStartGroup then
    .ok (encodeTagAndWireType tag u.encoding ++ u.contents
      ++ encodeTagAndWireType tag wireEndGroup)
  else if u.encoding = wireFixed32 then
    .ok (encodeTagAndWireType tag u.encoding ++ encodeFixed32 u.value)
  else if u.encoding = wireFixed64 then
    .ok (encodeTagAndWireType tag u.encoding ++ encodeFixed64 u.value)
  else if u.encoding = wireVarint then
    .ok (encodeTagAndWireType tag u.encoding ++ encodeVarint u.value)
  else .error .badWireType

/-- The inner loop of `marshalUnknownFields`: one tag's stored occurrences, in
stored order. -/
def encodeUnknownEntries (tag : Nat) : List UnknownField → Except DErr (List Nat)
  | [] => .ok []
  | u :: rest =>
    match encodeUnknownField tag u with
    | .error e => .error e
    | .ok b =>
      match encodeUnknownEntries tag rest with
      | .error e => .error e
      | .ok bs => .ok (b ++ bs)

/-- The outer loop of `marshalUnknownFields`: every unknown tag in enumeration
order, each with its stored occurrences in order. -/
def marshalUnknownTags (uf : List (Nat × List UnknownField)) : List Nat →
    Except DErr (List Nat)
  | [] => .ok []
  | tag :: rest =>
    match encodeUnknownEntries tag (lookupUnknown uf tag) with
    | .error e => .error e
    | .ok b =>
      match marshalUnknownTags uf rest with
      | .error e => .error e
      | .ok bs => .ok (b ++ bs)

/-- `Message.marshalUnknownFields`. -/
def marshalUnknownFields (m : DynMessage) : Except DErr (List Nat) :=
  marshalUnknownTags m.unknownFields m.unknownFieldTags

mutual

/-- `Message.marshal`: the known fields, then the unknown fields, into one
buffer. -/
def marshal (m : DynMessage) (deterministic : Bool) : Except DErr (List Nat) :=
  match marshalKnownFields m m.knownFieldTags deterministic with
  | .error e => .error e
  | .ok kb =>
    match marshalUnknownFields m with
    | .error e => .error e
    | .ok ub => .ok (kb ++ ub)
termination_by (sizeOf m, 1, 0)
decreasing_by
  · apply Prod.Lex.right
    apply Prod.Lex.left
    omega

/-- The loop of `marshalKnownFields`: for every known tag, look up the value
and the field descriptor (a missing descriptor is the Go panic, modelled as
the distinguished unrecoverable error) and encode the field value; the
deterministic flag selects `EncodeFieldValueDeterministic`, which differs only
on map-entry ordering — already fixed by the list representation of this
model, so both route to the same encoding here. -/
def marshalKnownFields (m : DynMessage) (tags : List Nat) (deterministic : Bool) :
    Except DErr (List Nat) :=
  match tags with
  | [] => .ok []
  | tag :: rest =>
    match h : lookupValue m.values tag with
    | none => .error .encodeBadValue
    | some val =>
      match m.findFieldDescriptor tag with
      | none => .error .missingFieldDescriptor
      | some fd =>
        match encodeFieldValue deterministic fd val with
        | .error e => .error e
        | .ok fb =>
          match marshalKnownFields m rest deterministic with
          | .error e => .error e
          | .ok bs => .ok (fb ++ bs)
termination_by (sizeOf m, 0, tags.length)
decreasing_by
  · apply Prod.Lex.left
    have hv := lookupValue_sizeOf h
    have h2 : sizeOf m.values < sizeOf m := by
      cases m
      simp only [DynMessage.values, DynMessage.mk.sizeOf_spec]
      omega
    omega
  · apply Prod.Lex.right
    apply Prod.Lex.right
    simp <;> omega

/-- Modelled from the spec: `codec.Buffer.EncodeFieldValue` — scalar numeric
conversions, length-prefixed bytes/strings, recursively-encoded sub-messages,
and packed/unpacked repeated handling per the field's packing declaration. -/
def encodeFieldValue (deterministic : Bool) (fd : DynField) (val : Value) :
    Except DErr (List Nat) :=
  match val with
  | .vlist vs =>
    if fd.packed && (varintTypes fd.typ || fixed32Types fd.typ || fixed64Types fd.typ) then
      match packedPayload fd.typ vs with
      | .error e => .error e
      | .ok payload =>
        .ok (encodeTagAndWireType fd.number wireBytes ++ encodeRawBytes payload)
    else encodeElems deterministic fd vs
  | v => encodeSingleValue deterministic fd v
termination_by (sizeOf val, 3, 0)
decreasing_by
  · apply Prod.Lex.left
    simp <;> omega
  · apply Prod.Lex.right
    apply Prod.Lex.left
    omega

/-- The per-element loop of unpacked repeated encoding. -/
def encodeElems (deterministic : Bool) (fd : DynField) (vs : List Value) :
    Except DErr (List Nat) :=
  match vs with
  | [] => .ok []
  | v :: rest =>
    match encodeSingleValue deterministic fd v with
    | .error e => .error e
    | .ok b =>
      match encodeElems deterministic fd rest with
      | .error e => .error e
      | .ok bs => .ok (b ++ bs)
termination_by (sizeOf vs, 2, 0)
decreasing_by
  · apply Prod.Lex.left
    simp <;> omega
  · apply Prod.Lex.left
    simp <;> omega

/-- One tagged value: header plus payload — scalars per their wire class,
bytes/strings length-prefixed, sub-messages recursively marshalled and
length-prefixed, groups wrapped in start/end markers. -/
def encodeSingleValue (deterministic : Bool) (fd : DynField) (v : Value) :
    Except DErr (List Nat) :=
  match v with
  | .vbytes bs =>
    if fd.typ = .bytes then
      .ok (encodeTagAndWireType fd.number wireBytes ++ encodeRawBytes bs)
    else .error .encodeBadValue
  | .vstr bs =>
    if fd.typ = .string then
      .ok (encodeTagAndWireType fd.number wireBytes ++ encodeRawBytes bs)
    else .error .encodeBadValue
  | .vmsg sub =>
    if fd.typ = .group then
      match marshal sub deterministic with
      | .error e => .error e
      | .ok inner =>
        .ok (encodeTagAndWireType fd.number wireStartGroup ++ inner
          ++ encodeTagAndWireType fd.number wireEndGroup)
    else if fd.typ = .message then
      match marshal sub deterministic with
      | .error e => .error e
      | .ok inner =>
        .ok (encodeTagAndWireType fd.number wireBytes ++ encodeRawBytes inner)
    else .error .encodeBadValue
  | .vlist _ => .error .encodeBadValue
  | w =>
    match encodeScalarPayload fd.typ w with
    | .error e => .error e
    | .ok payload => .ok (encodeTagAndWireType fd.number (wireTypeOf fd.typ) ++ payload)
termination_by (sizeOf v, 1, 0)
decreasing_by
  · apply Prod.Lex.left
    simp <;> omega
  · apply Prod.Lex.left
    simp <;> omega

end

/-- `Marshal`: serialize to fresh bytes (`defaultDeterminism` is false outside
tests). -/
def Marshal (m : DynMessage) : Except DErr (List Nat) := marshal m false

/-- `MarshalAppend`: marshal into a buffer initialized with the given bytes. -/
def MarshalAppend (m : DynMessage) (b : List Nat) : Except DErr (List Nat) :=
  (marshal m false).map (fun out => b ++ out)

/-- `MarshalDeterministic`: serialize with deterministic map-entry ordering. -/
def MarshalDeterministic (m : DynMessage) : Except DErr (List Nat) := marshal m true

/-! ### Step equations for the decoder

`unmarshalP`/`unmarshalKnownFieldP` are the decoder functions with the
termination bound on the remainder projected away; all reasoning below is in
terms of these. -/

def unmarshalP (m : DynMessage) (b : List Nat) (isGroup : Bool) :
    Except DErr (DynMessage × List Nat) :=
  (unmarshal m b isGroup).map (fun p => (p.1, p.2.1))

def unmarshalKnownFieldP (m : DynMessage) (fd : DynField) (encoding : Nat) (b : List Nat) :
    Except DErr (DynMessage × List Nat) :=
  (unmarshalKnownField m fd encoding b).map (fun p => (p.1, p.2.1))

theorem unmarshalMerge_eq_P (m : DynMessage) (b : List Nat) :
    UnmarshalMerge m b = (unmarshalP m b false).map (fun p => p.1) := by
  rw [UnmarshalMerge, unmarshalP]
  cases unmarshal m b false with
  | error e => rfl
  | ok p => rfl

theorem decodeTagAndWireType_nil {x : Nat × Nat × List Nat} :
    decodeTagAndWireType [] ≠ .ok x := by
  simp [decodeTagAndWireType, decodeVarint, decodeVarintAux]

/-- End of input: the loop stops — an error inside a group, success otherwise. -/
theorem unmarshalP_nil (m : DynMessage) (g : Bool) :
    unmarshalP m [] g = if g then .error .unexpectedEOF else .ok (m, []) := by
  rw [unmarshalP, unmarshal]
  cases g <;> simp [Except.map]

/-- A group-end header: success (consuming the header) inside a group, the
wire-format error otherwise. -/
theorem unmarshalP_endGroup {b : List Nat} {tag : Nat} {rest : List Nat}
    (m : DynMessage) (g : Bool)
    (h : decodeTagAndWireType b = .ok (tag, wireEndGroup, rest)) :
    unmarshalP m b g = if g then .ok (m, rest) else .error .badWireType := by
  have hbne : b ≠ [] := by
    intro he
    exact decodeTagAndWireType_nil (he ▸ h)
  rw [unmarshalP, unmarshal, dif_neg hbne]
  split
  · rename_i e heq
    rw [h] at heq
    exact absurd heq (by simp)
  · rename_i t w r heq
    rw [h] at heq
    obtain ⟨rfl, rfl, rfl⟩ : tag = t ∧ wireEndGroup = w ∧ rest = r := by
      simpa [Prod.ext_iff] using heq
    rw [if_pos rfl]
    cases g <;> simp [Except.map]

/-- A header decode failure aborts the loop with that error. -/
theorem unmarshalP_headerErr {b : List Nat} {e : DErr} (m : DynMessage) (g : Bool)
    (hbne : b ≠ []) (h : decodeTagAndWireType b = .error e) :
    unmarshalP m b g = .error e := by
  rw [unmarshalP, unmarshal, dif_neg hbne]
  split
  · rename_i e' heq
    rw [h] at heq
    obtain rfl : e = e' := by simpa using heq
    rfl
  · rename_i t w r heq
    rw [h] at heq
    exact absurd heq (by simp)

/-- One unknown-field occurrence captured: the loop continues behind it. -/
theorem unmarshalP_step_unknown {m : DynMessage} {b : List Nat} {g : Bool}
    {tag wt : Nat} {rest1 : List Nat} {m2 : DynMessage} {rest2 : List Nat}
    (h : decodeTagAndWireType b = .ok (tag, wt, rest1)) (hwt : wt ≠ wireEndGroup)
    (hfd : m.findFieldDescriptor tag = none)
    (hu : unmarshalUnknownField m tag wt rest1 = .ok (m2, rest2)) :
    unmarshalP m b g = unmarshalP m2 rest2 g := by
  have hbne : b ≠ [] := by
    intro he
    exact decodeTagAndWireType_nil (he ▸ h)
  rw [unmarshalP, unmarshal, dif_neg hbne]
  split
  · rename_i e heq
    rw [h] at heq
    exact absurd heq (by simp)
  · rename_i t w r heq
    rw [h] at heq
    obtain ⟨rfl, rfl, rfl⟩ : tag = t ∧ wt = w ∧ rest1 = r := by
      simpa [Prod.ext_iff] using heq
    rw [if_neg hwt]
    simp only [hfd]
    split
    · rename_i e heq2
      rw [hu] at heq2
      exact absurd heq2 (by simp)
    · rename_i m2' rest2' heq2
      rw [hu] at heq2
      obtain ⟨rfl, rfl⟩ : m2 = m2' ∧ rest2 = rest2' := by
        simpa [Prod.ext_iff] using heq2
      rw [unmarshalP]
      cases unmarshal m2 rest2 g with
      | error e => rfl
      | ok p => rfl

/-- An unknown-field capture failure aborts the loop with that error. -/
theorem unmarshalP_step_unknown_err {m : DynMessage} {b : List Nat} {g : Bool}
    {tag wt : Nat} {rest1 : List Nat} {e : DErr}
    (h : decodeTagAndWireType b = .ok (tag, wt, rest1)) (hwt : wt ≠ wireEndGroup)
    (hfd : m.findFieldDescriptor tag = none)
    (hu : unmarshalUnknownField m tag wt rest1 = .error e) :
    unmarshalP m b g = .error e := by
  have hbne : b ≠ [] := by
    intro he
    exact decodeTagAndWireType_nil (he ▸ h)
  rw [unmarshalP, unmarshal, dif_neg hbne]
  split
  · rename_i e' heq
    rw [h] at heq
    exact absurd heq (by simp)
  · rename_i t w r heq
    rw [h] at heq
    obtain ⟨rfl, rfl, rfl⟩ : tag = t ∧ wt = w ∧ rest1 = r := by
      simpa [Prod.ext_iff] using heq
    rw [if_neg hwt]
    simp only [hfd]
    split
    · rename_i e' heq2
      rw [hu] at heq2
      obtain rfl : e = e' := by simpa using heq2
      rfl
    · rename_i m2' rest2' heq2
      rw [hu] at heq2
      exact absurd heq2 (by simp)

/-- One known-field occurrence decoded and merged: the loop continues behind
it. -/
theorem unmarshalP_step_known {m : DynMessage} {b : List Nat} {g : Bool}
    {tag wt : Nat} {rest1 : List Nat} {fd : DynField} {m2 : DynMessage} {rest2 : List Nat}
    (h : decodeTagAndWireType b = .ok (tag, wt, rest1)) (hwt : wt ≠ wireEndGroup)
    (hfd : m.findFieldDescriptor tag = some fd)
    (hk : unmarshalKnownFieldP m fd wt rest1 = .ok (m2, rest2)) :
    unmarshalP m b g = unmarshalP m2 rest2 g := by
  have hbne : b ≠ [] := by
    intro he
    exact decodeTagAndWireType_nil (he ▸ h)
  rw [unmarshalKnownFieldP] at hk
  rw [unmarshalP, unmarshal, dif_neg hbne]
  split
  · rename_i e heq
    rw [h] at heq
    exact absurd heq (by simp)
  · rename_i t w r heq
    rw [h] at heq
    obtain ⟨rfl, rfl, rfl⟩ : tag = t ∧ wt = w ∧ rest1 = r := by
      simpa [Prod.ext_iff] using heq
    rw [if_neg hwt]
    simp only [hfd]
    cases heq2 : unmarshalKnownField m fd wt rest1 with
    | error e =>
      rw [heq2] at hk
      exact absurd hk (by simp [Except.map])
    | ok p =>
      rw [heq2] at hk
      obtain ⟨p1, p2⟩ := p
      obtain ⟨hm2, hr2⟩ : p1 = m2 ∧ p2.1 = rest2 := by
        simpa [Except.map, Prod.ext_iff] using hk
      subst hm2
      subst hr2
      rw [unmarshalP]
      cases hu : unmarshal p1 p2.1 g with
      | error e => simp [Except.map, hu]
      | ok q => simp [Except.map, hu]

/-- A known-field decode failure aborts the loop with that error. -/
theorem unmarshalP_step_known_err {m : DynMessage} {b : List Nat} {g : Bool}
    {tag wt : Nat} {rest1 : List Nat} {fd : DynField} {e : DErr}
    (h : decodeTagAndWireType b = .ok (tag, wt, rest1)) (hwt : wt ≠ wireEndGroup)
    (hfd : m.findFieldDescriptor tag = some fd)
    (hk : unmarshalKnownFieldP m fd wt rest1 = .error e) :
    unmarshalP m b g = .error e := by
  have hbne : b ≠ [] := by
    intro he
    exact decodeTagAndWireType_nil (he ▸ h)
  rw [unmarshalKnownFieldP] at hk
  rw [unmarshalP, unmarshal, dif_neg hbne]
  split
  · rename_i e' heq
    rw [h] at heq
    exact absurd heq (by simp)
  · rename_i t w r heq
    rw [h] at heq
    obtain ⟨rfl, rfl, rfl⟩ : tag = t ∧ wt = w ∧ rest1 = r := by
      simpa [Prod.ext_iff] using heq
    rw [if_neg hwt]
    simp only [hfd]
    cases heq2 : unmarshalKnownField m fd wt rest1 with
    | error e' =>
      rw [heq2] at hk
      obtain rfl : e' = e := by simpa [Except.map] using hk
      rfl
    | ok p =>
      rw [heq2] at hk
      exact absurd hk (by simp [Except.map])

/-! ### Step equations for `unmarshalKnownField` and
`unmarshalLengthDelimitedField` -/

/-- A varint-encoded occurrence of a known field: the numeric value is read
and interpreted by `unmarshalSimpleField`, and the result (or its error)
determines the outcome. -/
theorem kfp_varint (m : DynMessage) (fd : DynField) (b : List Nat) (num : Nat)
    (rest : List Nat) (hdec : decodeVarint b = .ok (num, rest)) :
    unmarshalKnownFieldP m fd wireVarint b =
      match unmarshalSimpleField fd num with
      | .error e => .error e
      | .ok val => .ok (mergeField m fd (some val), rest) := by
  rw [unmarshalKnownFieldP, unmarshalKnownField]
  rw [if_neg (by decide : ¬ (wireVarint = wireFixed32)),
    if_neg (by decide : ¬ (wireVarint = wireFixed64)), if_pos rfl]
  split
  · rename_i e heq
    rw [hdec] at heq
    exact absurd heq (by simp)
  · rename_i v r heq
    rw [hdec] at heq
    obtain ⟨rfl, rfl⟩ : num = v ∧ rest = r := by simpa [Prod.ext_iff] using heq
    cases hs : unmarshalSimpleField fd num with
    | error e => simp [Except.map, hs]
    | ok val => simp [Except.map, hs]

/-- A length-delimited occurrence of a known field that is not bytes/string
typed: the payload is cut out and handed to `unmarshalLengthDelimitedField`. -/
theorem kfp_lenDelim (m : DynMessage) (fd : DynField) (b raw rest : List Nat)
    (ht1 : fd.typ ≠ .bytes) (ht2 : fd.typ ≠ .string)
    (hdec : decodeRawBytes false b = .ok (raw, rest)) :
    unmarshalKnownFieldP m fd wireBytes b =
      match unmarshalLengthDelimitedField fd raw with
      | .error e => .error e
      | .ok val => .ok (mergeField m fd val, rest) := by
  rw [unmarshalKnownFieldP, unmarshalKnownField]
  rw [if_neg (by decide : ¬ (wireBytes = wireFixed32)),
    if_neg (by decide : ¬ (wireBytes = wireFixed64)),
    if_neg (by decide : ¬ (wireBytes = wireVarint)), if_pos rfl,
    if_neg ht1, if_neg ht2]
  split
  · rename_i e heq
    rw [hdec] at heq
    exact absurd heq (by simp)
  · rename_i raw' rest' heq
    rw [hdec] at heq
    obtain ⟨rfl, rfl⟩ : raw = raw' ∧ rest = rest' := by simpa [Prod.ext_iff] using heq
    cases hs : unmarshalLengthDelimitedField fd raw with
    | error e => simp [Except.map, hs]
    | ok val => simp [Except.map, hs]

/-- A length-delimited payload for a message- or group-typed field decodes a
fresh nested message through the full `Unmarshal` pipeline. -/
theorem ldf_message (fd : DynField) (bytes : List Nat) (dsc : DynDescriptor)
    (ht : fd.typ = .message ∨ fd.typ = .group) (hm : fd.msgType = some dsc) :
    unmarshalLengthDelimitedField fd bytes =
      match Unmarshal (freshMessage dsc) bytes with
      | .error e => .error e
      | .ok msg => .ok (some (.vmsg msg)) := by
  have ht1 : fd.typ ≠ .bytes := by rcases ht with h | h <;> simp [h]
  have ht2 : fd.typ ≠ .string := by rcases ht with h | h <;> simp [h]
  rw [unmarshalLengthDelimitedField, if_neg ht1, if_neg ht2, if_pos ht]
  simp only [hm]

/-- A length-delimited payload for any other declared scalar type is retried
as a packed-repeated run. -/
theorem ldf_packedRun (fd : DynField) (bytes : List Nat)
    (ht1 : fd.typ ≠ .bytes) (ht2 : fd.typ ≠ .string)
    (ht3 : ¬ (fd.typ = .message ∨ fd.typ = .group)) :
    unmarshalLengthDelimitedField fd bytes =
      match packedLoop fd bytes none [] with
      | .error e => .error e
      | .ok (val, slice) =>
        if fd.repeated then .ok (some (.vlist slice)) else .ok val := by
  rw [unmarshalLengthDelimitedField, if_neg ht1, if_neg ht2, if_neg ht3]

/-! ### The `Unmarshal`/`UnmarshalMerge` pipeline -/

/-- `Unmarshal` is reset, then merge, then validation. -/
theorem Unmarshal_eq (m : DynMessage) (b : List Nat) :
    Unmarshal m b =
      match UnmarshalMerge m.reset b with
      | .error e => .error e
      | .ok m1 =>
        match validateMessage m1 with
        | .error e => .error e
        | .ok _ => .ok m1 := by
  rw [Unmarshal]

/-- A successful merge loop is the whole of `UnmarshalMerge`: the merged
message is returned with no further checks. -/
theorem unmarshalMerge_ok {m : DynMessage} {b : List Nat} {m' : DynMessage}
    {r : List Nat} (h : unmarshalP m b false = .ok (m', r)) :
    UnmarshalMerge m b = .ok m' := by
  rw [unmarshalMerge_eq_P, h]
  rfl

/-- A failed merge loop is the whole of `UnmarshalMerge`. -/
theorem unmarshalMerge_err {m : DynMessage} {b : List Nat} {e : DErr}
    (h : unmarshalP m b false = .error e) : UnmarshalMerge m b = .error e := by
  rw [unmarshalMerge_eq_P, h]
  rfl

/-- Merging empty input returns the message unchanged. -/
theorem unmarshalMerge_nil (m : DynMessage) : UnmarshalMerge m [] = .ok m :=
  unmarshalMerge_ok (show unmarshalP m [] false = .ok (m, []) by
    rw [unmarshalP_nil]
    rfl)

/-! ## C4: numeric overflow for 32-bit targets -/

/-- C4: decoding a 64-bit numeric wire value into a known field with a 32-bit
declared type raises the numeric-overflow error (never truncates): for
uint32/fixed32/sfixed32/sint32/float any value above `2^32 - 1`, and for
int32/enum any value whose two's-complement reading falls outside the int32
range; in particular the value `2^32` overflows declared int32, uint32, float
and sfixed32 fields, and on the wire (varint payload of a known field) the
interpretation error is the decoder's verdict. -/
theorem numeric_overflow_32bit :
    (∀ (fd : DynField) (v : Nat),
      ((fd.typ = .uint32 ∨ fd.typ = .fixed32 ∨ fd.typ = .sfixed32
          ∨ fd.typ = .sint32 ∨ fd.typ = .float) ∧ v > 2 ^ 32 - 1)
      ∨ ((fd.typ = .int32 ∨ fd.typ = .enum)
          ∧ (toInt64 v > 2 ^ 31 - 1 ∨ toInt64 v < -(2 ^ 31))) →
      unmarshalSimpleField fd v = .error .numericOverflow)
    ∧ (∀ fd : DynField,
      fd.typ = .int32 ∨ fd.typ = .uint32 ∨ fd.typ = .float ∨ fd.typ = .sfixed32 →
      unmarshalSimpleField fd (2 ^ 32) = .error .numericOverflow)
    ∧ (∀ (m : DynMessage) (fd : DynField) (b : List Nat) (num : Nat)
        (rest : List Nat) (e : DErr),
      decodeVarint b = .ok (num, rest) → unmarshalSimpleField fd num = .error e →
      unmarshalKnownFieldP m fd wireVarint b = .error e) := by
  have main : ∀ (fd : DynField) (v : Nat),
      ((fd.typ = .uint32 ∨ fd.typ = .fixed32 ∨ fd.typ = .sfixed32
          ∨ fd.typ = .sint32 ∨ fd.typ = .float) ∧ v > 2 ^ 32 - 1)
      ∨ ((fd.typ = .int32 ∨ fd.typ = .enum)
          ∧ (toInt64 v > 2 ^ 31 - 1 ∨ toInt64 v < -(2 ^ 31))) →
      unmarshalSimpleField fd v = .error .numericOverflow := by
    intro fd v h
    rcases h with ⟨ht, hv⟩ | ⟨ht, hv⟩
    · rcases ht with ht | ht | ht | ht | ht <;>
        simp [unmarshalSimpleField, ht, hv] <;> omega
    · rcases ht with ht | ht <;>
      · simp only [unmarshalSimpleField, ht]
        rw [if_pos hv]
  refine ⟨main, ?_, ?_⟩
  · intro fd ht
    rcases ht with ht | ht | ht | ht
    · exact main fd (2 ^ 32) (Or.inr ⟨Or.inl ht, by decide⟩)
    · exact main fd (2 ^ 32) (Or.inl ⟨Or.inl ht, by decide⟩)
    · exact main fd (2 ^ 32) (Or.inl ⟨Or.inr (Or.inr (Or.inr (Or.inr ht))), by decide⟩)
    · exact main fd (2 ^ 32) (Or.inl ⟨Or.inr (Or.inr (Or.inl ht)), by decide⟩)
  · intro m fd b num rest e hdec hsf
    rw [kfp_varint m fd b num rest hdec]
    simp only [hsf]

/-- C4 witness: the value `2^32` overflows a declared int32 field, and the
same varint payload on the wire yields the overflow error. -/
theorem numeric_overflow_32bit_witness :
    unmarshalSimpleField (DynField.mk 1 .int32 false false false none) (2 ^ 32)
        = .error .numericOverflow
    ∧ unmarshalKnownFieldP (freshMessage (DynDescriptor.mk []))
        (DynField.mk 1 .int32 false false false none) wireVarint
        [128, 128, 128, 128, 16] = .error .numericOverflow := by
  refine ⟨numeric_overflow_32bit.2.1 _ (Or.inl rfl), ?_⟩
  exact numeric_overflow_32bit.2.2 _ _ _ (2 ^ 32) [] _ (by rfl)
    (numeric_overflow_32bit.2.1 _ (Or.inl rfl))

/-! ## C6: group-end markers and end of input -/

/-- C6: a group-end header outside any group fails `UnmarshalMerge` and
`Unmarshal` immediately with the wire-format error; inside a group the same
header ends the group's parse successfully, consuming the marker; and end of
input while still inside a group is the unexpected-EOF error. -/
theorem group_end_marker_handling :
    (∀ (m : DynMessage) (b : List Nat) (tag : Nat) (rest : List Nat),
      decodeTagAndWireType b = .ok (tag, wireEndGroup, rest) →
        UnmarshalMerge m b = .error .badWireType
        ∧ Unmarshal m b = .error .badWireType
        ∧ unmarshalP m b true = .ok (m, rest))
    ∧ (∀ m : DynMessage, unmarshalP m [] true = .error .unexpectedEOF) := by
  constructor
  · intro m b tag rest h
    have houter : unmarshalP m b false = .error .badWireType := by
      rw [unmarshalP_endGroup m false h]
      rfl
    have houterR : unmarshalP m.reset b false = .error .badWireType := by
      rw [unmarshalP_endGroup m.reset false h]
      rfl
    refine ⟨unmarshalMerge_err houter, ?_, ?_⟩
    · rw [Unmarshal_eq]
      simp only [unmarshalMerge_err houterR]
    · rw [unmarshalP_endGroup m true h]
      rfl
  · intro m
    rw [unmarshalP_nil]
    rfl

/-- C6 witness: the two-byte-free header `[12]` encodes tag 1 with the
group-end wire type; at top level both decode entry points reject it, inside
a group it ends the parse. -/
theorem group_end_marker_handling_witness :
    UnmarshalMerge (freshMessage (DynDescriptor.mk [])) [12] = .error .badWireType
    ∧ Unmarshal (freshMessage (DynDescriptor.mk [])) [12] = .error .badWireType
    ∧ unmarshalP (freshMessage (DynDescriptor.mk [])) [12] true
        = .ok (freshMessage (DynDescriptor.mk []), []) := by
  exact group_end_marker_handling.1 (freshMessage (DynDescriptor.mk [])) [12] 1 []
    rfl

/-! ## C7: reset/merge/validate versus merge-only -/

/-- A nested message descriptor with one required int32 field (tag 5). -/
def c7Inner : DynDescriptor := .mk [.mk 5 .int32 false false true none]

/-- A message field (tag 1) whose type is the nested descriptor above. -/
def c7Fd : DynField := .mk 1 .message false false false (some c7Inner)

/-- A top-level descriptor declaring only the message field above. -/
def c7Outer : DynDescriptor := .mk [c7Fd]

/-- C7 counterexample: `UnmarshalMerge` CAN return the validation error. The
input `[10, 0]` is one occurrence of the declared message field tag 1 with an
empty payload; decoding the nested message runs the full `Unmarshal` pipeline
(`proto.Unmarshal` on a dynamic message), whose post-decode validation fails
because required field 5 is absent — so the claim that `UnmarshalMerge`
never returns a validation error is false (it performs no validation of its
own result, but surfaces nested validation failures). -/
theorem unmarshalMerge_validation_error_possible :
    UnmarshalMerge (freshMessage c7Outer) [10, 0] = .error .validationRequired := by
  have hval : validateMessage (freshMessage c7Inner) = .error .validationRequired := rfl
  have hmergeInner : UnmarshalMerge (freshMessage c7Inner) [] = .ok (freshMessage c7Inner) :=
    unmarshalMerge_nil _
  have hU2 : Unmarshal (freshMessage c7Inner) [] = .error .validationRequired := by
    rw [Unmarshal_eq]
    have hr : (freshMessage c7Inner).reset = freshMessage c7Inner := rfl
    rw [hr]
    simp only [hmergeInner, hval]
  have hldf : unmarshalLengthDelimitedField c7Fd [] = .error .validationRequired := by
    rw [ldf_message c7Fd [] c7Inner (Or.inl rfl) rfl]
    simp only [hU2]
  have hkfp : unmarshalKnownFieldP (freshMessage c7Outer) c7Fd wireBytes [0]
      = .error .validationRequired := by
    rw [kfp_lenDelim (freshMessage c7Outer) c7Fd [0] [] []
      (by decide) (by decide) rfl]
    simp only [hldf]
  have hp : unmarshalP (freshMessage c7Outer) [10, 0] false
      = .error .validationRequired :=
    unmarshalP_step_known_err
      (show decodeTagAndWireType [10, 0] = .ok (1, wireBytes, [0]) from rfl)
      (show wireBytes ≠ wireEndGroup by decide)
      (show (freshMessage c7Outer).findFieldDescriptor 1 = some c7Fd from rfl)
      hkfp
  exact unmarshalMerge_err hp

/-- C7 (amended): `Unmarshal` is reset, then merge, then post-decode
validation, and the validation error is distinct from every wire-format
error; `UnmarshalMerge` merges into the existing state without resetting and
performs no validation of its result — whenever the merge loop succeeds it
returns the merged message as is (though, unlike the original claim, it can
still surface a validation error raised inside a nested message decode). -/
theorem unmarshal_pipeline_validation :
    (∀ (m : DynMessage) (b : List Nat),
      Unmarshal m b =
        match UnmarshalMerge m.reset b with
        | .error e => .error e
        | .ok m1 =>
          match validateMessage m1 with
          | .error e => .error e
          | .ok _ => .ok m1)
    ∧ (∀ (m : DynMessage) (b : List Nat),
      UnmarshalMerge m b = (unmarshalP m b false).map (fun p => p.1))
    ∧ (∀ (m : DynMessage) (b : List Nat) (m' : DynMessage) (r : List Nat),
      unmarshalP m b false = .ok (m', r) → UnmarshalMerge m b = .ok m')
    ∧ (∀ e, e = DErr.unexpectedEOF ∨ e = DErr.varintOverflow
        ∨ e = DErr.tagOutOfRange ∨ e = DErr.badWireType
        ∨ e = DErr.numericOverflow ∨ e = DErr.requiresLenDelim
        ∨ e = DErr.cannotParseLenDelim ∨ e = DErr.groupNotMessage →
        DErr.validationRequired ≠ e) := by
  refine ⟨Unmarshal_eq, unmarshalMerge_eq_P, ?_, ?_⟩
  · intro m b m' r h
    exact unmarshalMerge_ok h
  · rintro e (rfl | rfl | rfl | rfl | rfl | rfl | rfl | rfl) <;> decide

/-- C7 witness: merging empty bytes into a fresh message of the
required-field descriptor succeeds with no validation, even though the
required field is absent (validation itself rejects that state). -/
theorem unmarshal_pipeline_validation_witness :
    UnmarshalMerge (freshMessage c7Inner) [] = .ok (freshMessage c7Inner)
    ∧ validateMessage (freshMessage c7Inner) = .error .validationRequired := by
  refine ⟨?_, rfl⟩
  exact unmarshal_pipeline_validation.2.2.1 (freshMessage c7Inner) []
    (freshMessage c7Inner) [] (by rw [unmarshalP_nil]; rfl)

/-! ## C10: known fields before unknown fields; per-tag stored order -/

/-- C10: every successful `marshal` output is the known-field bytes followed
by the unknown-field bytes; the three entry points all route through
`marshal`; and the stored occurrences of one unknown tag are emitted in
stored (arrival) order — the first stored occurrence's bytes precede the
bytes of the remaining occurrences. -/
theorem known_before_unknown_emission :
    (∀ (m : DynMessage) (det : Bool) (out : List Nat), marshal m det = .ok out →
      ∃ kb ub, marshalKnownFields m m.knownFieldTags det = .ok kb
        ∧ marshalUnknownFields m = .ok ub ∧ out = kb ++ ub)
    ∧ (∀ m : DynMessage, Marshal m = marshal m false
        ∧ MarshalDeterministic m = marshal m true
        ∧ ∀ pre : List Nat, MarshalAppend m pre = (marshal m false).map (fun o => pre ++ o))
    ∧ (∀ (tag : Nat) (u : UnknownField) (us : List UnknownField) (b1 b2 : List Nat),
      encodeUnknownField tag u = .ok b1 → encodeUnknownEntries tag us = .ok b2 →
      encodeUnknownEntries tag (u :: us) = .ok (b1 ++ b2)) := by
  refine ⟨?_, fun m => ⟨rfl, rfl, fun pre => rfl⟩, ?_⟩
  · intro m det out h
    rw [marshal] at h
    split at h
    · exact absurd h (by simp)
    · rename_i kb hk
      split at h
      · exact absurd h (by simp)
      · rename_i ub hu
        refine ⟨kb, ub, hk, hu, ?_⟩
        simpa using h.symm
  · intro tag u us b1 b2 h1 h2
    rw [encodeUnknownEntries]
    simp only [h1, h2]

/-- A message store with no known values and one unknown tag (7) holding one
varint occurrence of value 5. -/
def c10m : DynMessage := .mk (.mk []) [] [(7, [.mk wireVarint 5 []])]

/-- C10 witness: marshalling the store above emits `[56, 5]`, which splits as
the (empty) known-field bytes followed by the unknown-field bytes. -/
theorem known_before_unknown_emission_witness :
    ∃ kb ub, marshalKnownFields c10m c10m.knownFieldTags false = .ok kb
      ∧ marshalUnknownFields c10m = .ok ub ∧ [56, 5] = kb ++ ub := by
  have h56 : encodeVarint 56 = [56] := by
    rw [encodeVarint]
    rfl
  have h5 : encodeVarint 5 = [5] := by
    rw [encodeVarint]
    rfl
  have he : encodeUnknownField 7 (.mk wireVarint 5 []) = .ok [56, 5] := by
    rw [encodeUnknownField]
    rw [if_neg (by decide), if_neg (by decide), if_neg (by decide),
      if_neg (by decide), if_pos rfl]
    have harg : encodeTagAndWireType 7 wireVarint = [56] := by
      rw [encodeTagAndWireType]
      norm_num [h56, wireVarint]
    rw [harg, h5]
    rfl
  have hub : marshalUnknownFields c10m = .ok [56, 5] := by
    rw [marshalUnknownFields]
    have htags : c10m.unknownFieldTags = [7] := rfl
    rw [htags, marshalUnknownTags]
    have hlk : lookupUnknown c10m.unknownFields 7 = [.mk wireVarint 5 []] := rfl
    rw [hlk, encodeUnknownEntries]
    simp only [he, encodeUnknownEntries]
    rfl
  have hkt : c10m.knownFieldTags = [] := rfl
  have hkf : marshalKnownFields c10m c10m.knownFieldTags false = .ok [] := by
    rw [hkt, marshalKnownFields]
  have hm : marshal c10m false = .ok [56, 5] := by
    rw [marshal]
    simp only [hkf, hub]
    rfl
  exact known_before_unknown_emission.1 c10m false [56, 5] hm

/-! ## C5: packed-run tolerance -/

/-- The canonical encoding of one packed element under the declared type's
wire class (what a consistent producer writes back-to-back). -/
def packedElemEnc (t : FieldType) (v : Nat) : List Nat :=
  if varintTypes t then encodeVarint v
  else if fixed32Types t then encodeFixed32 v
  else encodeFixed64 v

/-- The raw-value bound of one packed element of the given declared type. -/
def packedBound (t : FieldType) : Nat :=
  if fixed32Types t then 2 ^ 32 else 2 ^ 64

theorem encodeVarint_ne_nil (v : Nat) : encodeVarint v ≠ [] := by
  rw [encodeVarint]
  split <;> simp

theorem packedElemEnc_ne_nil (t : FieldType) (v : Nat) : packedElemEnc t v ≠ [] := by
  rw [packedElemEnc]
  split
  · exact encodeVarint_ne_nil v
  · split
    · simp [encodeFixed32]
    · simp [encodeFixed64]

/-- Reading one packed element back from its canonical encoding returns the
value and consumes exactly its bytes. -/
theorem packedElemRead_enc (t : FieldType) (v : Nat) (rest : List Nat)
    (hcl : varintTypes t = true ∨ fixed32Types t = true ∨ fixed64Types t = true)
    (hv : v < packedBound t) :
    packedElemRead t (packedElemEnc t v ++ rest) = .ok (v, rest) := by
  by_cases h1 : varintTypes t = true
  · have h2 : fixed32Types t = false := by
      cases t <;> simp_all [varintTypes, fixed32Types]
    rw [packedElemEnc, if_pos h1, packedElemRead, if_pos h1]
    refine decodeVarint_encode v rest ?_
    rw [packedBound, if_neg (by simp [h2])] at hv
    exact hv
  · by_cases h2 : fixed32Types t = true
    · rw [packedElemEnc, if_neg h1, if_pos h2, packedElemRead, if_neg h1, if_pos h2]
      refine decodeFixed32_encode v rest ?_
      rw [packedBound, if_pos h2] at hv
      exact hv
    · have h3 : fixed64Types t = true := by tauto
      rw [packedElemEnc, if_neg h1, if_neg h2, packedElemRead,
        if_neg h1, if_neg h2, if_pos h3]
      refine decodeFixed64_encode v rest ?_
      rw [packedBound, if_neg (by simp [h2])] at hv
      exact hv

/-- The `val` accumulator of the packed-run loop: the last element of the
run, or the incoming value when the run is empty. -/
def lastValue (val : Option Value) : List Value → Option Value
  | [] => val
  | w :: rest => lastValue (some w) rest

theorem lastValue_getLast (l : List Value) :
    ∀ d : Value, lastValue (some d) l = some (l.getLastD d) := by
  induction l with
  | nil => intro d; rfl
  | cons a l ih =>
    intro d
    simp [lastValue, ih, List.getLast?_cons, List.getLastD_eq_getLast?]

theorem lastValue_none (l : List Value) : lastValue none l = l.getLast? := by
  cases l with
  | nil => rfl
  | cons a l => simp [lastValue, lastValue_getLast, List.getLast?_cons]

/-- The packed-run loop over the canonical concatenation of a run of raw
values interpreted by `unmarshalSimpleField`: the loop succeeds, keeps the
last interpreted value, and appends every interpreted value to the slice
exactly when the field is repeated. -/
theorem packedLoop_run (fd : DynField)
    (hcl : varintTypes fd.typ = true ∨ fixed32Types fd.typ = true
      ∨ fixed64Types fd.typ = true) :
    ∀ (ns : List Nat) (ws : List Value),
      List.Forall₂ (fun n w => unmarshalSimpleField fd n = .ok w) ns ws →
      (∀ n ∈ ns, n < packedBound fd.typ) →
      ∀ (val : Option Value) (slice : List Value),
      packedLoop fd ((ns.map (packedElemEnc fd.typ)).flatten) val slice =
        .ok (lastValue val ws, slice ++ if fd.repeated then ws else []) := by
  intro ns
  induction ns with
  | nil =>
    intro ws hfa hrange val slice
    have hws : ws = [] := by cases hfa; rfl
    subst hws
    rw [List.map_nil, List.flatten_nil, packedLoop]
    simp [lastValue]
  | cons n ns ih =>
    intro ws hfa hrange val slice
    cases hfa with
    | cons hR hfa2 =>
      rename_i w ws2
      rw [List.map_cons, List.flatten_cons, packedLoop,
        dif_neg (by simp [packedElemEnc_ne_nil fd.typ n])]
      split
      · rename_i e heq
        rw [packedElemRead_enc fd.typ n _ hcl (hrange n (by simp))] at heq
        exact absurd heq (by simp)
      · rename_i v rest heq
        rw [packedElemRead_enc fd.typ n _ hcl (hrange n (by simp))] at heq
        obtain ⟨rfl, rfl⟩ : n = v ∧ (ns.map (packedElemEnc fd.typ)).flatten = rest := by
          simpa [Prod.ext_iff] using heq
        split
        · rename_i e heq2
          rw [hR] at heq2
          exact absurd heq2 (by simp)
        · rename_i w' heq2
          rw [hR] at heq2
          obtain rfl : w = w' := by simpa using heq2
          rw [ih ws2 hfa2 (fun x hx => hrange x (by simp [hx])) (some w)
            (if fd.repeated then slice ++ [w] else slice)]
          have hl : lastValue val (w :: ws2) = lastValue (some w) ws2 := rfl
          rw [hl]
          by_cases hrep : fd.repeated = true <;> simp [hrep]

/-- C5: a length-delimited payload for a known field of scalar wire class
(not message, group, string or bytes) decodes as a packed-repeated run
whether or not the field is declared packed: the concatenation of the
elements' scalar encodings decodes to every value in order for a repeated
field, and to only the final value (none when the run is empty) for a
singular field. -/
theorem packed_run_tolerance (fd : DynField) (ns : List Nat) (ws : List Value)
    (hcl : varintTypes fd.typ = true ∨ fixed32Types fd.typ = true
      ∨ fixed64Types fd.typ = true)
    (hrange : ∀ n ∈ ns, n < packedBound fd.typ)
    (hfa : List.Forall₂ (fun n w => unmarshalSimpleField fd n = .ok w) ns ws) :
    unmarshalLengthDelimitedField fd ((ns.map (packedElemEnc fd.typ)).flatten) =
      if fd.repeated then .ok (some (.vlist ws)) else .ok ws.getLast? := by
  have hnb : fd.typ ≠ .bytes ∧ fd.typ ≠ .string
      ∧ ¬ (fd.typ = .message ∨ fd.typ = .group) := by
    rcases hcl with h | h | h <;>
      cases htt : fd.typ <;>
      simp_all [varintTypes, fixed32Types, fixed64Types]
  rw [ldf_packedRun fd _ hnb.1 hnb.2.1 hnb.2.2]
  rw [packedLoop_run fd hcl ns ws hfa hrange none []]
  by_cases hrep : fd.repeated = true <;> simp [hrep, lastValue_none]

/-- A repeated int32 field declared unpacked (tag 1). -/
def c5Fd : DynField := .mk 1 .int32 true false false none

/-- C5 witness: the back-to-back varints for 1 and 300 decode into the
unpacked repeated int32 field as the ordered sequence of both values. -/
theorem packed_run_tolerance_witness :
    unmarshalLengthDelimitedField c5Fd
        ((([1, 300] : List Nat).map (packedElemEnc c5Fd.typ)).flatten)
      = .ok (some (.vlist [.vi32 1, .vi32 300])) := by
  have h := packed_run_tolerance c5Fd [1, 300] [.vi32 1, .vi32 300]
    (Or.inl rfl) (by decide)
    (List.Forall₂.cons (by rfl) (List.Forall₂.cons (by rfl) List.Forall₂.nil))
  simpa [c5Fd, DynField.repeated] using h

/-! ## C1: byte-for-byte preservation of unknown fields

A grammar of well-formed wire occurrences: each occurrence is a tag with a
payload of one of the five wire classes, groups nesting recursively; its
encoding is canonical by construction (minimal varints, matching group-end
tags). The decode side shows such occurrences of undeclared tags are captured
verbatim into the unknown-field store; the encode side shows
`marshalUnknownFields` re-emits each tag's stored occurrences byte for byte. -/

mutual

inductive WirePayload where
  | varint (v : Nat)
  | fixed32 (v : Nat)
  | fixed64 (v : Nat)
  | lenDelim (bs : List Nat)
  | group (inner : WireOccs)

inductive WireOccs where
  | nil
  | cons (tag : Nat) (p : WirePayload) (rest : WireOccs)

end

/-- The wire-type code of a payload's class. -/
def wtOfP : WirePayload → Nat
  | .varint _ => wireVarint
  | .fixed32 _ => wireFixed32
  | .fixed64 _ => wireFixed64
  | .lenDelim _ => wireBytes
  | .group _ => wireStartGroup

mutual

/-- The bytes of one occurrence's payload after its header (a group payload
ends with its own tag's group-end header). -/
def payloadTail (t : Nat) (p : WirePayload) : List Nat :=
  match p with
  | .varint v => encodeVarint v
  | .fixed32 v => encodeFixed32 v
  | .fixed64 v => encodeFixed64 v
  | .lenDelim bs => encodeRawBytes bs
  | .group inner => encodeOccs inner ++ encodeTagAndWireType t wireEndGroup

/-- The bytes of a run of occurrences. -/
def encodeOccs (o : WireOccs) : List Nat :=
  match o with
  | .nil => []
  | .cons t p rest => encodeTagAndWireType t (wtOfP p) ++ payloadTail t p ++ encodeOccs rest

end

/-- The bytes of one whole occurrence: header then payload. -/
def encodeOcc (t : Nat) (p : WirePayload) : List Nat :=
  encodeTagAndWireType t (wtOfP p) ++ payloadTail t p

mutual

/-- Payload wellformedness: values fit their wire class, nested groups are
wellformed runs. -/
def payloadValid (p : WirePayload) : Bool :=
  match p with
  | .varint v => decide (v < 2 ^ 64)
  | .fixed32 v => decide (v < 2 ^ 32)
  | .fixed64 v => decide (v < 2 ^ 64)
  | .lenDelim bs => decide (bs.length < 2 ^ 64)
  | .group inner => occsValid inner

/-- Run wellformedness: every tag is a positive protobuf tag number and every
payload is wellformed. -/
def occsValid (o : WireOccs) : Bool :=
  match o with
  | .nil => true
  | .cons t p rest =>
    decide (1 ≤ t) && decide (t ≤ 2 ^ 29 - 1) && payloadValid p && occsValid rest

end

/-- The unknown-field entry the decoder stores for one payload. -/
def entryOf : WirePayload → UnknownField
  | .varint v => .mk wireVarint v []
  | .fixed32 v => .mk wireFixed32 v []
  | .fixed64 v => .mk wireFixed64 v []
  | .lenDelim bs => .mk wireBytes 0 bs
  | .group inner => .mk wireStartGroup 0 (encodeOccs inner)

/-- The store after capturing one occurrence of an undeclared tag. -/
def applyOcc (m : DynMessage) (t : Nat) (p : WirePayload) : DynMessage :=
  .mk m.descr m.values (appendUnknownField m.unknownFields t (entryOf p))

/-- The unknown-field store after a run: occurrences of undeclared tags are
appended in arrival order, occurrences of declared tags leave the store
untouched (they merge into the known-value map instead). -/
def applyUnknownOccs (d : DynDescriptor)
    (uf : List (Nat × List UnknownField)) : WireOccs → List (Nat × List UnknownField)
  | .nil => uf
  | .cons t p rest =>
    if (d.fields.find? (fun f => f.number == t)).isNone
    then applyUnknownOccs d (appendUnknownField uf t (entryOf p)) rest
    else applyUnknownOccs d uf rest

/-- One undeclared tag's entries of a run, in arrival order (empty when the
tag is declared). -/
def unknownEntriesAt (d : DynDescriptor) (t : Nat) : WireOccs → List UnknownField
  | .nil => []
  | .cons u p rest =>
    (if (d.fields.find? (fun f => f.number == u)).isNone
     then (if u = t then [entryOf p] else []) else [])
      ++ unknownEntriesAt d t rest

/-- One undeclared tag's original occurrence bytes of a run, concatenated in
arrival order. -/
def unknownBytesAt (d : DynDescriptor) (t : Nat) : WireOccs → List Nat
  | .nil => []
  | .cons u p rest =>
    (if (d.fields.find? (fun f => f.number == u)).isNone
     then (if u = t then encodeOcc u p else []) else [])
      ++ unknownBytesAt d t rest

/-- Every occurrence of a declared tag is accepted by that field's decode and
consumes exactly its payload bytes, whatever the current store (the store
only enters a known-field decode through the final merge). Occurrences of
undeclared tags need nothing. -/
def occsDecodable (d : DynDescriptor) : WireOccs → Prop
  | .nil => True
  | .cons t p rest =>
    (match d.fields.find? (fun f => f.number == t) with
      | none => True
      | some fd => ∀ (m : DynMessage) (R : List Nat),
          ∃ m2 : DynMessage,
            unmarshalKnownFieldP m fd (wtOfP p) (payloadTail t p ++ R) = .ok (m2, R))
    ∧ occsDecodable d rest

/-! ### Scanning an encoded run with `readGroupLoop` -/

/-- One non-group occurrence consumed verbatim by the group scanner. -/
theorem readGroupLoop_scalarStep (t wt : Nat) (pb tail : List Nat) (depth : Nat)
    (htag : t ≤ 2 ^ 31 - 1) (hwt8 : wt < 8)
    (hwt4 : wt ≠ wireEndGroup) (hwt3 : wt ≠ wireStartGroup)
    (hskip : skipScalarPayload wt (pb ++ tail) = .ok tail) :
    readGroupLoop (encodeTagAndWireType t wt ++ (pb ++ tail)) depth =
      (readGroupLoop tail depth).map
        (fun q => (encodeTagAndWireType t wt ++ pb ++ q.1, q.2)) := by
  rw [readGroupLoop]
  split
  · rename_i e heq
    rw [decodeTagAndWireType_encode t wt _ htag hwt8] at heq
    exact absurd heq (by simp)
  · rename_i v w r1 heq
    rw [decodeTagAndWireType_encode t wt _ htag hwt8] at heq
    obtain ⟨rfl, rfl, rfl⟩ : t = v ∧ wt = w ∧ pb ++ tail = r1 := by
      simpa [Prod.ext_iff] using heq
    rw [if_neg hwt4, if_neg hwt3]
    split
    · rename_i e heq2
      rw [hskip] at heq2
      exact absurd heq2 (by simp)
    · rename_i rest2 heq2
      rw [hskip] at heq2
      obtain rfl : tail = rest2 := by simpa using heq2
      have hc : consumedBy (encodeTagAndWireType t wt ++ (pb ++ tail)) tail
          = encodeTagAndWireType t wt ++ pb := by
        rw [← List.append_assoc]
        exact consumedBy_append _ _
      cases hr : readGroupLoop tail depth with
      | error e => simp [hr, Except.map]
      | ok q => simp [hr, Except.map, hc, List.append_assoc]

/-- A group-end header at positive nesting depth: the scanner keeps it and
drops one level. -/
theorem readGroupLoop_endStep (t : Nat) (tail : List Nat) (d : Nat)
    (htag : t ≤ 2 ^ 31 - 1) :
    readGroupLoop (encodeTagAndWireType t wireEndGroup ++ tail) (d + 1) =
      (readGroupLoop tail d).map
        (fun q => (encodeTagAndWireType t wireEndGroup ++ q.1, q.2)) := by
  rw [readGroupLoop]
  split
  · rename_i e heq
    rw [decodeTagAndWireType_encode t wireEndGroup _ htag (by decide)] at heq
    exact absurd heq (by simp)
  · rename_i v w r1 heq
    rw [decodeTagAndWireType_encode t wireEndGroup _ htag (by decide)] at heq
    obtain ⟨rfl, rfl, rfl⟩ : t = v ∧ wireEndGroup = w ∧ tail = r1 := by
      simpa [Prod.ext_iff] using heq
    rw [if_pos rfl, if_neg (by omega : ¬ (d + 1 = 0))]
    have hd : d + 1 - 1 = d := by omega
    rw [hd]
    have hc : consumedBy (encodeTagAndWireType t wireEndGroup ++ tail) tail
        = encodeTagAndWireType t wireEndGroup := consumedBy_append _ _
    cases hr : readGroupLoop tail d with
    | error e => simp [hr, Except.map]
    | ok q => simp [hr, Except.map, hc]

/-- A group-end header at depth zero ends the scan, excluded from the
contents. -/
theorem readGroupLoop_endStop (t : Nat) (tail : List Nat)
    (htag : t ≤ 2 ^ 31 - 1) :
    readGroupLoop (encodeTagAndWireType t wireEndGroup ++ tail) 0 = .ok ([], tail) := by
  rw [readGroupLoop]
  split
  · rename_i e heq
    rw [decodeTagAndWireType_encode t wireEndGroup _ htag (by decide)] at heq
    exact absurd heq (by simp)
  · rename_i v w r1 heq
    rw [decodeTagAndWireType_encode t wireEndGroup _ htag (by decide)] at heq
    obtain ⟨rfl, rfl, rfl⟩ : t = v ∧ wireEndGroup = w ∧ tail = r1 := by
      simpa [Prod.ext_iff] using heq
    rw [if_pos rfl, if_pos rfl]

/-- The scanner consumes an encoded wellformed run verbatim and continues
behind it at the same depth. -/
theorem readGroupLoop_occs (n : Nat) :
    ∀ occs : WireOccs, sizeOf occs ≤ n → occsValid occs = true →
    ∀ (cont : List Nat) (depth : Nat),
    readGroupLoop (encodeOccs occs ++ cont) depth =
      (readGroupLoop cont depth).map (fun q => (encodeOccs occs ++ q.1, q.2)) := by
  induction n with
  | zero =>
    intro occs hsz
    have h0 : 0 < sizeOf occs := by cases occs <;> simp
    omega
  | succ n ih =>
    intro occs hsz hval cont depth
    match occs with
    | .nil =>
      rw [show encodeOccs .nil = [] from rfl]
      cases hr : readGroupLoop cont depth with
      | error e => simp [hr, Except.map]
      | ok q => simp [hr, Except.map]
    | .cons t p rest =>
      have hv : (1 ≤ t ∧ t ≤ 2 ^ 29 - 1) ∧ payloadValid p = true
          ∧ occsValid rest = true := by
        have := hval
        simp only [occsValid, Bool.and_eq_true, decide_eq_true_eq] at this
        tauto
      have htag : t ≤ 2 ^ 31 - 1 := by omega
      have hszrest : sizeOf rest ≤ n := by
        simp only [WireOccs.cons.sizeOf_spec] at hsz
        have hp0 : 0 < sizeOf p := by cases p <;> simp
        omega
      cases p with
      | varint v =>
        have hb : v < 2 ^ 64 := by
          have := hv.2.1
          simpa [payloadValid] using this
        have hshape : encodeOccs (.cons t (.varint v) rest) ++ cont
            = encodeTagAndWireType t wireVarint
              ++ (encodeVarint v ++ (encodeOccs rest ++ cont)) := by
          simp [encodeOccs, payloadTail, wtOfP, List.append_assoc]
        rw [hshape, readGroupLoop_scalarStep t wireVarint (encodeVarint v)
          (encodeOccs rest ++ cont) depth htag (by decide) (by decide) (by decide)
          (by rw [skipScalarPayload, if_pos rfl, decodeVarint_encode v _ hb]; rfl)]
        rw [ih rest hszrest hv.2.2 cont depth]
        cases hr : readGroupLoop cont depth with
        | error e => simp [hr, Except.map]
        | ok q => simp [hr, Except.map, encodeOccs, payloadTail, wtOfP, List.append_assoc]
      | fixed32 v =>
        have hb : v < 2 ^ 32 := by
          have := hv.2.1
          simpa [payloadValid] using this
        have hshape : encodeOccs (.cons t (.fixed32 v) rest) ++ cont
            = encodeTagAndWireType t wireFixed32
              ++ (encodeFixed32 v ++ (encodeOccs rest ++ cont)) := by
          simp [encodeOccs, payloadTail, wtOfP, List.append_assoc]
        rw [hshape, readGroupLoop_scalarStep t wireFixed32 (encodeFixed32 v)
          (encodeOccs rest ++ cont) depth htag (by decide) (by decide) (by decide)
          (by rw [skipScalarPayload, if_neg (by decide), if_pos rfl,
            decodeFixed32_encode v _ hb]; rfl)]
        rw [ih rest hszrest hv.2.2 cont depth]
        cases hr : readGroupLoop cont depth with
        | error e => simp [hr, Except.map]
        | ok q => simp [hr, Except.map, encodeOccs, payloadTail, wtOfP, List.append_assoc]
      | fixed64 v =>
        have hb : v < 2 ^ 64 := by
          have := hv.2.1
          simpa [payloadValid] using this
        have hshape : encodeOccs (.cons t (.fixed64 v) rest) ++ cont
            = encodeTagAndWireType t wireFixed64
              ++ (encodeFixed64 v ++ (encodeOccs rest ++ cont)) := by
          simp [encodeOccs, payloadTail, wtOfP, List.append_assoc]
        rw [hshape, readGroupLoop_scalarStep t wireFixed64 (encodeFixed64 v)
          (encodeOccs rest ++ cont) depth htag (by decide) (by decide) (by decide)
          (by rw [skipScalarPayload, if_neg (by decide), if_neg (by decide), if_pos rfl,
            decodeFixed64_encode v _ hb]; rfl)]
        rw [ih rest hszrest hv.2.2 cont depth]
        cases hr : readGroupLoop cont depth with
        | error e => simp [hr, Except.map]
        | ok q => simp [hr, Except.map, encodeOccs, payloadTail, wtOfP, List.append_assoc]
      | lenDelim bs =>
        have hb : bs.length < 2 ^ 64 := by
          have := hv.2.1
          simpa [payloadValid] using this
        have hshape : encodeOccs (.cons t (.lenDelim bs) rest) ++ cont
            = encodeTagAndWireType t wireBytes
              ++ (encodeRawBytes bs ++ (encodeOccs rest ++ cont)) := by
          simp [encodeOccs, payloadTail, wtOfP, List.append_assoc]
        rw [hshape, readGroupLoop_scalarStep t wireBytes (encodeRawBytes bs)
          (encodeOccs rest ++ cont) depth htag (by decide) (by decide) (by decide)
          (by rw [skipScalarPayload, if_neg (by decide), if_neg (by decide),
            if_neg (by decide), if_pos rfl, encodeRawBytes, List.append_assoc,
            decodeRawBytes_encode false bs _ hb]; rfl)]
        rw [ih rest hszrest hv.2.2 cont depth]
        cases hr : readGroupLoop cont depth with
        | error e => simp [hr, Except.map]
        | ok q =>
          simp [hr, Except.map, encodeOccs, payloadTail, wtOfP, List.append_assoc]
      | group inner =>
        have hvin : occsValid inner = true := by
          have := hv.2.1
          simpa [payloadValid] using this
        have hszin : sizeOf inner ≤ n := by
          simp only [WireOccs.cons.sizeOf_spec, WirePayload.group.sizeOf_spec] at hsz
          omega
        have hshape : encodeOccs (.cons t (.group inner) rest) ++ cont
            = encodeTagAndWireType t wireStartGroup
              ++ (encodeOccs inner ++ (encodeTagAndWireType t wireEndGroup
                  ++ (encodeOccs rest ++ cont))) := by
          simp [encodeOccs, payloadTail, wtOfP, List.append_assoc]
        rw [hshape, readGroupLoop]
        split
        · rename_i e heq
          rw [decodeTagAndWireType_encode t wireStartGroup _ htag (by decide)] at heq
          exact absurd heq (by simp)
        · rename_i v w r1 heq
          rw [decodeTagAndWireType_encode t wireStartGroup _ htag (by decide)] at heq
          obtain ⟨rfl, rfl, rfl⟩ : t = v ∧ wireStartGroup = w
              ∧ encodeOccs inner ++ (encodeTagAndWireType t wireEndGroup
                  ++ (encodeOccs rest ++ cont)) = r1 := by
            simpa [Prod.ext_iff] using heq
          rw [if_neg (by decide), if_pos rfl]
          rw [ih inner hszin hvin _ (depth + 1),
            readGroupLoop_endStep t _ depth htag,
            ih rest hszrest hv.2.2 cont depth]
          have hc : consumedBy (encodeTagAndWireType t wireStartGroup
              ++ (encodeOccs inner ++ (encodeTagAndWireType t wireEndGroup
                  ++ (encodeOccs rest ++ cont))))
              (encodeOccs inner ++ (encodeTagAndWireType t wireEndGroup
                  ++ (encodeOccs rest ++ cont)))
              = encodeTagAndWireType t wireStartGroup := consumedBy_append _ _
          cases hr : readGroupLoop cont depth with
          | error e => simp [hr, Except.map]
          | ok q =>
            simp [hr, Except.map, hc, encodeOccs, payloadTail, wtOfP, List.append_assoc]

/-- `ReadGroup` on an encoded wellformed run followed by the matching end
marker returns exactly the run's bytes as the group contents. -/
theorem readGroup_occs (inner : WireOccs) (t : Nat) (R : List Nat)
    (hv : occsValid inner = true) (ht : t ≤ 2 ^ 31 - 1) :
    readGroup true (encodeOccs inner ++ (encodeTagAndWireType t wireEndGroup ++ R))
      = .ok (encodeOccs inner, R) := by
  rw [readGroup, readGroupLoop_occs (sizeOf inner) inner (Nat.le_refl _) hv _ 0,
    readGroupLoop_endStop t R ht]
  simp [Except.map]

/-! ### Capturing one undeclared occurrence -/

/-- The unknown-field path captures one wellformed occurrence verbatim:
the stored entry is the payload's raw value or raw bytes, and exactly the
occurrence's payload bytes are consumed. -/
theorem unmarshalUnknownField_occ (m : DynMessage) (t : Nat) (p : WirePayload)
    (R : List Nat) (hv : payloadValid p = true) (ht : t ≤ 2 ^ 31 - 1) :
    unmarshalUnknownField m t (wtOfP p) (payloadTail t p ++ R)
      = .ok (applyOcc m t p, R) := by
  cases p with
  | varint v =>
    have hb : v < 2 ^ 64 := by simpa [payloadValid] using hv
    rw [unmarshalUnknownField]
    simp only [wtOfP, payloadTail]
    rw [if_neg (by decide), if_neg (by decide), if_true,
      decodeVarint_encode v R hb]
    rfl
  | fixed32 v =>
    have hb : v < 2 ^ 32 := by simpa [payloadValid] using hv
    rw [unmarshalUnknownField]
    simp only [wtOfP, payloadTail]
    rw [if_true, decodeFixed32_encode v R hb]
    rfl
  | fixed64 v =>
    have hb : v < 2 ^ 64 := by simpa [payloadValid] using hv
    rw [unmarshalUnknownField]
    simp only [wtOfP, payloadTail]
    rw [if_neg (by decide), if_true, decodeFixed64_encode v R hb]
    rfl
  | lenDelim bs =>
    have hb : bs.length < 2 ^ 64 := by simpa [payloadValid] using hv
    rw [unmarshalUnknownField]
    simp only [wtOfP, payloadTail]
    rw [if_neg (by decide), if_neg (by decide), if_neg (by decide), if_true,
      encodeRawBytes, List.append_assoc, decodeRawBytes_encode true bs R hb]
    rfl
  | group inner =>
    have hvin : occsValid inner = true := by simpa [payloadValid] using hv
    rw [unmarshalUnknownField]
    simp only [wtOfP, payloadTail]
    rw [if_neg (by decide), if_neg (by decide), if_neg (by decide),
      if_neg (by decide), if_true, List.append_assoc,
      readGroup_occs inner t R hvin ht]
    rfl

/-! ### A known-field decode never touches the unknown store -/

/-- Every successful `unmarshalKnownField` result is a `mergeField` of the
incoming store, so the descriptor and the unknown-field store pass through
unchanged. -/
theorem unmarshalKnownField_parts {m : DynMessage} {fd : DynField} {wt : Nat}
    {b : List Nat} {m2 : DynMessage} {rest : {r : List Nat // r.length ≤ b.length}}
    (h : unmarshalKnownField m fd wt b = .ok (m2, rest)) :
    m2.descr = m.descr ∧ m2.unknownFields = m.unknownFields := by
  rw [unmarshalKnownField] at h
  repeat' split at h
  all_goals try exact Except.noConfusion h
  all_goals simp only [Except.ok.injEq, Prod.mk.injEq] at h
  all_goals obtain ⟨hm, -⟩ := h
  all_goals rw [← hm]
  all_goals
    exact ⟨(mergeField_unknownFields m fd _).2, (mergeField_unknownFields m fd _).1⟩

theorem kfp_parts {m : DynMessage} {fd : DynField} {wt : Nat} {b : List Nat}
    {m2 : DynMessage} {rest : List Nat}
    (h : unmarshalKnownFieldP m fd wt b = .ok (m2, rest)) :
    m2.descr = m.descr ∧ m2.unknownFields = m.unknownFields := by
  rw [unmarshalKnownFieldP] at h
  cases heq : unmarshalKnownField m fd wt b with
  | error e =>
    rw [heq] at h
    exact absurd h (by simp [Except.map])
  | ok q =>
    rw [heq] at h
    obtain ⟨q1, q2⟩ := q
    obtain ⟨rfl, -⟩ : q1 = m2 ∧ q2.1 = rest := by
      simpa [Except.map, Prod.ext_iff] using h
    exact unmarshalKnownField_parts heq

/-! ### Decoding a mixed run of declared and undeclared occurrences -/

/-- The merge loop over an encoded wellformed run — declared and undeclared
tags interleaved, each declared occurrence accepted by its field — succeeds,
consumes everything, keeps the descriptor, and changes the unknown-field
store by exactly the undeclared occurrences in arrival order. -/
theorem unmarshalP_mixedRun (occs : WireOccs) :
    occsValid occs = true → ∀ (d : DynDescriptor) (m : DynMessage),
    m.descr = d → occsDecodable d occs →
    ∃ m' : DynMessage,
      unmarshalP m (encodeOccs occs) false = .ok (m', [])
      ∧ m'.descr = d
      ∧ m'.unknownFields = applyUnknownOccs d m.unknownFields occs := by
  match occs with
  | .nil =>
    intro _ d m hd _
    refine ⟨m, ?_, hd, rfl⟩
    rw [show encodeOccs .nil = [] from rfl, unmarshalP_nil]
    rfl
  | .cons t p rest =>
    intro hval d m hd hdec
    obtain ⟨hhead, hrest⟩ := hdec
    have hv : (1 ≤ t ∧ t ≤ 2 ^ 29 - 1) ∧ payloadValid p = true
        ∧ occsValid rest = true := by
      have := hval
      simp only [occsValid, Bool.and_eq_true, decide_eq_true_eq] at this
      tauto
    have htag : t ≤ 2 ^ 31 - 1 := by omega
    have hwt8 : wtOfP p < 8 := by
      cases p <;> simp [wtOfP, wireVarint, wireFixed32, wireFixed64,
        wireBytes, wireStartGroup]
    have hshape : encodeOccs (.cons t p rest)
        = encodeTagAndWireType t (wtOfP p) ++ (payloadTail t p ++ encodeOccs rest) := by
      simp [encodeOccs, List.append_assoc]
    have hh : decodeTagAndWireType (encodeOccs (.cons t p rest))
        = .ok (t, wtOfP p, payloadTail t p ++ encodeOccs rest) := by
      rw [hshape]
      exact decodeTagAndWireType_encode t (wtOfP p) _ htag hwt8
    have hwt4 : wtOfP p ≠ wireEndGroup := by
      cases p <;> simp [wtOfP, wireVarint, wireFixed32, wireFixed64,
        wireBytes, wireStartGroup, wireEndGroup]
    cases hfind : d.fields.find? (fun f => f.number == t) with
    | none =>
      have hfd : m.findFieldDescriptor t = none := by
        rw [DynMessage.findFieldDescriptor, hd, hfind]
      have hcap := unmarshalUnknownField_occ m t p (encodeOccs rest) hv.2.1 htag
      rw [unmarshalP_step_unknown hh hwt4 hfd hcap]
      have hd2 : (applyOcc m t p).descr = d := by
        rw [show (applyOcc m t p).descr = m.descr from rfl, hd]
      obtain ⟨m', hrun, hds, hust⟩ :=
        unmarshalP_mixedRun rest hv.2.2 d (applyOcc m t p) hd2 hrest
      refine ⟨m', hrun, hds, ?_⟩
      rw [hust,
        show (applyOcc m t p).unknownFields
          = appendUnknownField m.unknownFields t (entryOf p) from rfl,
        applyUnknownOccs, if_pos (by rw [hfind]; rfl)]
    | some fd =>
      have hfd : m.findFieldDescriptor t = some fd := by
        rw [DynMessage.findFieldDescriptor, hd, hfind]
      have hacc : ∀ (mm : DynMessage) (R : List Nat),
          ∃ m2 : DynMessage,
            unmarshalKnownFieldP mm fd (wtOfP p) (payloadTail t p ++ R)
              = .ok (m2, R) := by
        rw [hfind] at hhead
        exact hhead
      obtain ⟨m2, hk⟩ := hacc m (encodeOccs rest)
      rw [unmarshalP_step_known hh hwt4 hfd hk]
      have hparts := kfp_parts hk
      have hd2 : m2.descr = d := by rw [hparts.1, hd]
      obtain ⟨m', hrun, hds, hust⟩ :=
        unmarshalP_mixedRun rest hv.2.2 d m2 hd2 hrest
      refine ⟨m', hrun, hds, ?_⟩
      rw [hust, hparts.2, applyUnknownOccs, if_neg (by rw [hfind]; simp)]

/-! ### The stored entries per tag -/

theorem lookupUnknown_cons_hit (k : Nat) (us : List UnknownField)
    (rest : List (Nat × List UnknownField)) :
    lookupUnknown ((k, us) :: rest) k = us := by
  rw [lookupUnknown, List.find?_cons_of_pos _ (by simp)]
  rfl

theorem lookupUnknown_cons_miss (k : Nat) (us : List UnknownField)
    (rest : List (Nat × List UnknownField)) (t : Nat) (h : k ≠ t) :
    lookupUnknown ((k, us) :: rest) t = lookupUnknown rest t := by
  rw [lookupUnknown, List.find?_cons_of_neg _ (by simp [h])]
  rfl

theorem lookupUnknown_appendTag (uf : List (Nat × List UnknownField))
    (s : Nat) (u : UnknownField) (t : Nat) :
    lookupUnknown (appendUnknownField uf s u) t
      = lookupUnknown uf t ++ (if s = t then [u] else []) := by
  induction uf with
  | nil =>
    rw [appendUnknownField]
    by_cases h : s = t
    · subst h
      rw [lookupUnknown_cons_hit, if_pos rfl]
      rfl
    · rw [lookupUnknown_cons_miss _ _ _ _ h, if_neg h]
      rfl
  | cons kv rest ih =>
    obtain ⟨k, us⟩ := kv
    rw [appendUnknownField]
    by_cases hk : k = s
    · subst hk
      rw [if_pos rfl]
      by_cases ht : k = t
      · subst ht
        rw [lookupUnknown_cons_hit, lookupUnknown_cons_hit, if_pos rfl]
      · rw [lookupUnknown_cons_miss _ _ _ _ ht, lookupUnknown_cons_miss _ _ _ _ ht,
          if_neg ht]
        simp
    · rw [if_neg hk]
      by_cases ht : k = t
      · subst ht
        rw [lookupUnknown_cons_hit, lookupUnknown_cons_hit,
          if_neg (fun he => hk he.symm)]
        simp
      · rw [lookupUnknown_cons_miss _ _ _ _ ht, lookupUnknown_cons_miss _ _ _ _ ht]
        exact ih

/-- The store after a run holds, at every tag, the prior entries followed by
that tag's undeclared occurrences of the run in arrival order. -/
theorem lookupUnknown_applyUnknownOccs (occs : WireOccs) :
    ∀ (d : DynDescriptor) (uf : List (Nat × List UnknownField)) (t : Nat),
    lookupUnknown (applyUnknownOccs d uf occs) t
      = lookupUnknown uf t ++ unknownEntriesAt d t occs := by
  match occs with
  | .nil => intro d uf t; simp [applyUnknownOccs, unknownEntriesAt]
  | .cons u p rest =>
    intro d uf t
    rw [applyUnknownOccs, unknownEntriesAt]
    by_cases hu : (d.fields.find? (fun f => f.number == u)).isNone = true
    · rw [if_pos hu, if_pos hu,
        lookupUnknown_applyUnknownOccs rest d (appendUnknownField uf u (entryOf p)) t,
        lookupUnknown_appendTag]
      by_cases h : u = t
      · subst h
        rw [List.append_assoc]
      · simp [h]
    · rw [if_neg hu, if_neg hu,
        lookupUnknown_applyUnknownOccs rest d uf t]
      simp

/-! ### Re-encoding the stored entries byte for byte -/

/-- Re-encoding one stored occurrence reproduces its original bytes. -/
theorem encodeUnknownField_entry (t : Nat) (p : WirePayload) :
    encodeUnknownField t (entryOf p) = .ok (encodeOcc t p) := by
  cases p <;>
    simp [encodeUnknownField, entryOf, encodeOcc, payloadTail, wtOfP,
      wireVarint, wireFixed32, wireFixed64, wireBytes, wireStartGroup,
      wireEndGroup, List.append_assoc]

/-- Re-encoding one tag's stored entries reproduces that tag's original
occurrence bytes, concatenated in arrival order. -/
theorem encodeUnknownEntries_unknownAt (d : DynDescriptor) (t : Nat)
    (occs : WireOccs) :
    encodeUnknownEntries t (unknownEntriesAt d t occs)
      = .ok (unknownBytesAt d t occs) := by
  match occs with
  | .nil => rfl
  | .cons u p rest =>
    rw [unknownEntriesAt, unknownBytesAt]
    by_cases hu : (d.fields.find? (fun f => f.number == u)).isNone = true
    · rw [if_pos hu, if_pos hu]
      by_cases h : u = t
      · subst h
        rw [if_pos rfl, if_pos rfl, List.singleton_append, encodeUnknownEntries]
        simp only [encodeUnknownField_entry u p,
          encodeUnknownEntries_unknownAt d u rest]
      · rw [if_neg h, if_neg h, List.nil_append, List.nil_append]
        exact encodeUnknownEntries_unknownAt d t rest
    · rw [if_neg hu, if_neg hu, List.nil_append, List.nil_append]
      exact encodeUnknownEntries_unknownAt d t rest

/-- The outer loop over any tag list concatenates the per-tag chunks. -/
theorem marshalUnknownTags_chunks (uf : List (Nat × List UnknownField))
    (chunk : Nat → List Nat)
    (hall : ∀ t, encodeUnknownEntries t (lookupUnknown uf t) = .ok (chunk t)) :
    ∀ tags : List Nat,
    marshalUnknownTags uf tags = .ok ((tags.map chunk).flatten) := by
  intro tags
  induction tags with
  | nil => rfl
  | cons t rest ih =>
    rw [marshalUnknownTags]
    simp only [hall t, ih]
    simp

theorem marshalKnownFields_nil (m : DynMessage) (det : Bool) :
    marshalKnownFields m [] det = .ok [] := by
  rw [marshalKnownFields]

/-- A store with no known values marshals to exactly its unknown-field
bytes. -/
theorem marshal_unknownOnly (m : DynMessage) (det : Bool) (ub : List Nat)
    (hval : m.values = []) (hub : marshalUnknownFields m = .ok ub) :
    marshal m det = .ok ub := by
  have hkt : m.knownFieldTags = [] := by
    rw [DynMessage.knownFieldTags, hval]
    rfl
  rw [marshal, hkt]
  simp only [marshalKnownFields_nil, hub]
  simp

/-- Every successful `marshal` output splits as the known-field bytes
followed by the unknown-field bytes. -/
theorem marshal_parts {m : DynMessage} {det : Bool} {out : List Nat}
    (h : marshal m det = .ok out) :
    ∃ kb ub, marshalKnownFields m m.knownFieldTags det = .ok kb
      ∧ marshalUnknownFields m = .ok ub ∧ out = kb ++ ub := by
  rw [marshal] at h
  split at h
  · exact absurd h (by simp)
  · rename_i kb hk
    split at h
    · exact absurd h (by simp)
    · rename_i ub hu
      exact ⟨kb, ub, hk, hu, by simpa using h.symm⟩

/-! ### C1: the claim, corrected to canonically-encoded occurrences -/

/-- C1 (amended): decoding a wellformed, canonically encoded wire run —
declared and undeclared tags interleaved, each declared-tag occurrence
accepted by its field's decode — succeeds, and re-encoding reproduces the
original wire bytes of every occurrence of each undeclared tag exactly: per
tag, the stored occurrences re-encode to the concatenation of their original
bytes in arrival order, however often the tag recurs; every successful
serialization (`Marshal`, `MarshalDeterministic`, and after the prefix
`MarshalAppend` keeps) carries these per-tag reproductions verbatim as its
unknown-field suffix, and when no known values were merged the whole output
is exactly that suffix. (The original claim is false for occurrences whose
varints are not minimally encoded: the decoder stores the numeric value and
re-encodes it canonically.) -/
theorem unknown_fields_byte_roundtrip (d : DynDescriptor) (occs : WireOccs)
    (pre : List Nat) (hval : occsValid occs = true)
    (hdec : occsDecodable d occs) :
    ∃ (m' : DynMessage) (ub : List Nat),
      UnmarshalMerge (freshMessage d) (encodeOccs occs) = .ok m'
      ∧ (∀ t : Nat, encodeUnknownEntries t (lookupUnknown m'.unknownFields t)
          = .ok (unknownBytesAt d t occs))
      ∧ marshalUnknownFields m' = .ok ub
      ∧ ub = (m'.unknownFieldTags.map (fun t => unknownBytesAt d t occs)).flatten
      ∧ (∀ out, Marshal m' = .ok out →
          ∃ kb, marshalKnownFields m' m'.knownFieldTags false = .ok kb
            ∧ out = kb ++ ub)
      ∧ (∀ out, MarshalDeterministic m' = .ok out →
          ∃ kb, marshalKnownFields m' m'.knownFieldTags true = .ok kb
            ∧ out = kb ++ ub)
      ∧ (∀ out, MarshalAppend m' pre = .ok out →
          ∃ kb, marshalKnownFields m' m'.knownFieldTags false = .ok kb
            ∧ out = pre ++ (kb ++ ub))
      ∧ (m'.values = [] → Marshal m' = .ok ub ∧ MarshalDeterministic m' = .ok ub
          ∧ MarshalAppend m' pre = .ok (pre ++ ub)) := by
  obtain ⟨m', hrun, hds, hust⟩ :=
    unmarshalP_mixedRun occs hval d (freshMessage d) rfl hdec
  have hperTag : ∀ t : Nat, encodeUnknownEntries t (lookupUnknown m'.unknownFields t)
      = .ok (unknownBytesAt d t occs) := by
    intro t
    rw [hust, lookupUnknown_applyUnknownOccs occs d (freshMessage d).unknownFields t,
      show lookupUnknown (freshMessage d).unknownFields t = [] from rfl,
      List.nil_append]
    exact encodeUnknownEntries_unknownAt d t occs
  have hub : marshalUnknownFields m'
      = .ok ((m'.unknownFieldTags.map (fun t => unknownBytesAt d t occs)).flatten) := by
    rw [marshalUnknownFields]
    exact marshalUnknownTags_chunks m'.unknownFields _ hperTag m'.unknownFieldTags
  refine ⟨m', (m'.unknownFieldTags.map (fun t => unknownBytesAt d t occs)).flatten,
    unmarshalMerge_ok hrun, hperTag, hub, rfl, ?_, ?_, ?_, ?_⟩
  · intro out hout
    rw [Marshal] at hout
    obtain ⟨kb, ub2, hkb, hub2, hsplit⟩ := marshal_parts hout
    refine ⟨kb, hkb, ?_⟩
    have hequ : ub2
        = (m'.unknownFieldTags.map (fun t => unknownBytesAt d t occs)).flatten := by
      have hx := hub2.symm.trans hub
      simpa using hx
    rw [hsplit, hequ]
  · intro out hout
    rw [MarshalDeterministic] at hout
    obtain ⟨kb, ub2, hkb, hub2, hsplit⟩ := marshal_parts hout
    refine ⟨kb, hkb, ?_⟩
    have hequ : ub2
        = (m'.unknownFieldTags.map (fun t => unknownBytesAt d t occs)).flatten := by
      have hx := hub2.symm.trans hub
      simpa using hx
    rw [hsplit, hequ]
  · intro out hout
    rw [MarshalAppend] at hout
    cases hmm : marshal m' false with
    | error e =>
      rw [hmm] at hout
      exact absurd hout (by simp [Except.map])
    | ok o =>
      rw [hmm] at hout
      have ho : pre ++ o = out := by simpa [Except.map] using hout
      obtain ⟨kb, ub2, hkb, hub2, hsplit⟩ := marshal_parts hmm
      refine ⟨kb, hkb, ?_⟩
      have hequ : ub2
          = (m'.unknownFieldTags.map (fun t => unknownBytesAt d t occs)).flatten := by
        have hx := hub2.symm.trans hub
        simpa using hx
      rw [← ho, hsplit, hequ]
  · intro hv0
    refine ⟨?_, ?_, ?_⟩
    · rw [Marshal]
      exact marshal_unknownOnly m' false _ hv0 hub
    · rw [MarshalDeterministic]
      exact marshal_unknownOnly m' true _ hv0 hub
    · rw [MarshalAppend, marshal_unknownOnly m' false _ hv0 hub]
      rfl

/-- The store produced by decoding the counterexample input below: tag 99,
one varint occurrence whose stored numeric value is 0. -/
def c1m : DynMessage := .mk (.mk []) [] [(99, [.mk wireVarint 0 []])]

/-- C1 counterexample: the original claim fails for non-canonical varints.
The input `[152, 6, 128, 0]` is one occurrence of undeclared tag 99 whose
varint payload `[128, 0]` encodes the value 0 in two bytes; decoding stores
the value and re-encoding emits the canonical one-byte form, so the output
`[152, 6, 0]` differs from the input bytes of that occurrence. -/
theorem noncanonical_varint_not_preserved :
    UnmarshalMerge (freshMessage (.mk [])) [152, 6, 128, 0] = .ok c1m
    ∧ Marshal c1m = .ok [152, 6, 0]
    ∧ ([152, 6, 0] : List Nat) ≠ [152, 6, 128, 0] := by
  refine ⟨?_, ?_, by decide⟩
  · have hstep := unmarshalP_step_unknown (m := freshMessage (.mk []))
      (g := false)
      (show decodeTagAndWireType [152, 6, 128, 0] = .ok (99, 0, [128, 0]) from rfl)
      (show (0 : Nat) ≠ wireEndGroup by decide)
      (show (freshMessage (.mk [])).findFieldDescriptor 99 = none from rfl)
      (show unmarshalUnknownField (freshMessage (.mk [])) 99 0 [128, 0]
        = .ok (c1m, []) from rfl)
    have hP : unmarshalP (freshMessage (.mk [])) [152, 6, 128, 0] false
        = .ok (c1m, []) := by
      rw [hstep, unmarshalP_nil]
      rfl
    exact unmarshalMerge_ok hP
  · have hv792 : encodeVarint 792 = [152, 6] := by
      rw [encodeVarint, encodeVarint]
      decide
    have hv0 : encodeVarint 0 = [0] := by
      rw [encodeVarint]
      rfl
    have he : encodeUnknownField 99 (.mk wireVarint 0 []) = .ok [152, 6, 0] := by
      rw [encodeUnknownField]
      rw [if_neg (by decide), if_neg (by decide), if_neg (by decide),
        if_neg (by decide), if_pos rfl]
      have harg : encodeTagAndWireType 99 wireVarint = [152, 6] := by
        rw [encodeTagAndWireType]
        norm_num [wireVarint, hv792]
      rw [harg, hv0]
      rfl
    have hub : marshalUnknownFields c1m = .ok [152, 6, 0] := by
      rw [marshalUnknownFields]
      have htags : c1m.unknownFieldTags = [99] := rfl
      rw [htags, marshalUnknownTags]
      have hlk : lookupUnknown c1m.unknownFields 99 = [.mk wireVarint 0 []] := rfl
      rw [hlk, encodeUnknownEntries]
      simp only [he, encodeUnknownEntries]
      rfl
    rw [Marshal]
    exact marshal_unknownOnly c1m false _ rfl hub

/-- A descriptor declaring one uint32 field (tag 1). -/
def c1wD : DynDescriptor := .mk [.mk 1 .uint32 false false false none]

/-- A wellformed mixed run: a declared-tag occurrence (tag 1), then the
undeclared tag 99 twice — once as a varint and once length-delimited. -/
def c1wOccs : WireOccs :=
  .cons 1 (.varint 5) (.cons 99 (.varint 7) (.cons 99 (.lenDelim [1, 2]) .nil))

/-- C1 witness: the amended round-trip at a concrete mixed run — a declared
field occurrence interleaved with a recurring unknown tag. -/
theorem unknown_fields_byte_roundtrip_witness :
    occsValid c1wOccs = true
    ∧ ∃ (m' : DynMessage) (ub : List Nat),
      UnmarshalMerge (freshMessage c1wD) (encodeOccs c1wOccs) = .ok m'
      ∧ (∀ t : Nat, encodeUnknownEntries t (lookupUnknown m'.unknownFields t)
          = .ok (unknownBytesAt c1wD t c1wOccs))
      ∧ marshalUnknownFields m' = .ok ub
      ∧ ub = (m'.unknownFieldTags.map (fun t => unknownBytesAt c1wD t c1wOccs)).flatten
      ∧ (∀ out, Marshal m' = .ok out →
          ∃ kb, marshalKnownFields m' m'.knownFieldTags false = .ok kb
            ∧ out = kb ++ ub)
      ∧ (∀ out, MarshalDeterministic m' = .ok out →
          ∃ kb, marshalKnownFields m' m'.knownFieldTags true = .ok kb
            ∧ out = kb ++ ub)
      ∧ (∀ out, MarshalAppend m' [9] = .ok out →
          ∃ kb, marshalKnownFields m' m'.knownFieldTags false = .ok kb
            ∧ out = [9] ++ (kb ++ ub))
      ∧ (m'.values = [] → Marshal m' = .ok ub ∧ MarshalDeterministic m' = .ok ub
          ∧ MarshalAppend m' [9] = .ok ([9] ++ ub)) := by
  have hdec : occsDecodable c1wD c1wOccs := by
    refine ⟨?_, trivial, trivial, trivial⟩
    intro m R
    refine ⟨mergeField m (.mk 1 .uint32 false false false none) (some (.vu32 5)), ?_⟩
    simp only [wtOfP, payloadTail]
    rw [kfp_varint m (DynField.mk 1 .uint32 false false false none)
      (encodeVarint 5 ++ R) 5 R (decodeVarint_encode 5 R (by norm_num))]
    rfl
  exact ⟨by decide, unknown_fields_byte_roundtrip c1wD c1wOccs [9] (by decide) hdec⟩

end ProtoDyn
